import Mathlib

/-!
Verification of the leveldb `Cache` interface (src/include/leveldb/cache.h).

The repository's source tree contains only the interface header; the built-in
sharded LRU implementation (`LRUHandle`, `LRUCache`, `ShardedLRUCache` of
util/cache.cc) is not under src/.  Its operational behaviour is therefore
modelled from the specification (spec.md sections 3 and 4.1-4.4), and every
definition below that embeds that missing code says so in its doc comment.

Keys, values and charges are natural numbers; a `Handle` is the identifier of
the entry it references; the caller-supplied deleter is modelled by a log of
`(entry id, key, value)` records, one record appended at the instant the
deleter would be invoked.
-/

namespace LCache

/-- Modelled from the spec: a cache entry (spec.md section 3 "Entry", the
`LRUHandle` struct of the missing util/cache.cc, realising `Cache::Handle` of
cache.h): key, value, charge, reference count and the `in_cache` flag. -/
structure Entry where
  key : Nat
  value : Nat
  charge : Nat
  refs : Nat
  inCache : Bool
deriving DecidableEq

/-- Modelled from the spec: the state of one single-lock LRU cache / shard
(spec.md section 4.3, the `LRUCache` class of the missing util/cache.cc).
`slots` maps live entry ids to entries; `cold` lists the ids of evictable
entries, head = least recently used; `usage` is the running total charge;
`deleted` logs every deleter invocation in order; `idCounter` backs `NewId`. -/
structure CacheState where
  capacity : Nat
  nextId : Nat
  slots : List (Nat × Entry)
  cold : List Nat
  usage : Nat
  deleted : List (Nat × Nat × Nat)
  idCounter : Nat
deriving DecidableEq

/-- The empty cache of a given capacity (`NewLRUCache`, cache.h line 34). -/
def initC (cap : Nat) : CacheState :=
  ⟨cap, 0, [], [], 0, [], 0⟩

/-- Look an entry id up in the slot list (first match). -/
def slookup : List (Nat × Entry) → Nat → Option Entry
  | [], _ => none
  | p :: l, i => if p.1 = i then some p.2 else slookup l i

/-- Replace the entry stored under an id, leaving other slots unchanged. -/
def supd (l : List (Nat × Entry)) (i : Nat) (e : Entry) : List (Nat × Entry) :=
  l.map (fun p => if p.1 = i then (i, e) else p)

/-- Remove every slot with the given id. -/
def srem : List (Nat × Entry) → Nat → List (Nat × Entry)
  | [], _ => []
  | p :: l, i => if p.1 = i then srem l i else p :: srem l i

/-- Modelled from the spec: the per-shard index (spec.md section 4.2, the
`HandleTable` of the missing util/cache.cc) maps a key to the id of the unique
in-cache entry holding it; absent keys yield `none`. -/
def ilook : List (Nat × Entry) → Nat → Option Nat
  | [], _ => none
  | p :: l, k => if p.2.inCache = true ∧ p.2.key = k then some p.1 else ilook l k

/-- Modelled from the spec: `Unref` (spec.md section 4.1): drop one reference;
if the count reaches zero, invoke the deleter (log a record) and free the
entry. -/
def unref (s : CacheState) (i : Nat) : CacheState :=
  match slookup s.slots i with
  | none => s
  | some e =>
    if e.refs ≤ 1 then
      { s with slots := srem s.slots i, deleted := s.deleted ++ [(i, e.key, e.value)] }
    else
      { s with slots := supd s.slots i { e with refs := e.refs - 1 } }

/-- Modelled from the spec: removing an entry from the cache
(`SetInCache(false)` / `FinishErase` of the missing util/cache.cc; spec.md
sections 4.1 and 4.3): detach it from the eviction list, clear `in_cache`,
subtract its charge, then drop the cache's own reference via `unref`. -/
def finishErase (s : CacheState) (i : Nat) : CacheState :=
  match slookup s.slots i with
  | none => s
  | some e =>
    if e.inCache = true then
      unref { s with
              slots := supd s.slots i { e with inCache := false },
              cold := s.cold.filter (fun x => x != i),
              usage := s.usage - e.charge } i
    else s

/-- Modelled from the spec: the eviction loop of `Insert` (spec.md section
4.3): while the total charge exceeds capacity and the cold list is non-empty,
evict the entry at the least-recently-used end of the cold list.  The fuel
argument bounds the iteration by the cold list length. -/
def evictFrom : CacheState → Nat → CacheState
  | s, 0 => s
  | s, fuel + 1 =>
    if s.capacity < s.usage then
      match s.cold with
      | [] => s
      | i :: _ => evictFrom (finishErase s i) fuel
    else s

/-- Run the eviction loop to completion (each step shortens the cold list). -/
def evict (s : CacheState) : CacheState :=
  evictFrom s s.cold.length

/-- Modelled from the spec: the displacement step of `Insert` (spec.md section
4.3): an existing entry with the same key is logically erased before the new
entry is added. -/
def insertDisplace (s : CacheState) (k : Nat) : CacheState :=
  match ilook s.slots k with
  | some j => finishErase s j
  | none => s

/-- Modelled from the spec: `Cache::Insert` (cache.h lines 57-79, spec.md
section 4.3): displace any entry with the same key, create the new entry with
two references (the cache's and the returned handle's) on the hot side, add
its charge, then evict cold entries while over capacity.  Returns the handle
(the fresh entry id) and the new state. -/
def insert (s : CacheState) (k v c : Nat) : Nat × CacheState :=
  let s1 := insertDisplace s k
  let i := s1.nextId
  let s2 := { s1 with
              slots := s1.slots ++ [(i, ⟨k, v, c, 2, true⟩)],
              nextId := i + 1,
              usage := s1.usage + c }
  (i, evict s2)

/-- Modelled from the spec: `Cache::Lookup` (cache.h lines 81-93, spec.md
section 4.3): absent keys return `none` and leave the state unchanged; a hit
gains a reference and moves the entry off the cold list (to the hot side). -/
def lookup (s : CacheState) (k : Nat) : Option Nat × CacheState :=
  match ilook s.slots k with
  | none => (none, s)
  | some i =>
    match slookup s.slots i with
    | none => (none, s)
    | some e =>
      (some i, { s with
                 slots := supd s.slots i { e with refs := e.refs + 1 },
                 cold := s.cold.filter (fun x => x != i) })

/-- Modelled from the spec: `Cache::Release` (cache.h lines 95-106, spec.md
section 4.3): drop the handle's reference; if exactly the cache's reference
remains and the entry is still in the cache, demote it to the most-recently
used end of the cold list; if no reference remains, destroy it. -/
def release (s : CacheState) (i : Nat) : CacheState :=
  match slookup s.slots i with
  | none => s
  | some e =>
    if e.refs ≤ 1 then
      { s with slots := srem s.slots i,
               cold := s.cold.filter (fun x => x != i),
               deleted := s.deleted ++ [(i, e.key, e.value)] }
    else if e.refs = 2 ∧ e.inCache = true then
      { s with slots := supd s.slots i { e with refs := 1 },
               cold := s.cold ++ [i] }
    else
      { s with slots := supd s.slots i { e with refs := e.refs - 1 } }

/-- `Cache::Value` (cache.h lines 108-121): the value a handle references. -/
def valueOf (s : CacheState) (i : Nat) : Option Nat :=
  (slookup s.slots i).map (·.value)

/-- Modelled from the spec: `Cache::Erase` (cache.h lines 123-131, spec.md
section 4.3): remove the key's entry from the index if present; the entry
itself survives until all outstanding handles are released. -/
def erase (s : CacheState) (k : Nat) : CacheState :=
  match ilook s.slots k with
  | some i => finishErase s i
  | none => s

/-- Modelled from the spec: the loop of `Cache::Prune` (cache.h lines 145-156,
spec.md section 4.3): evict from the cold list until it is empty. -/
def pruneFrom : CacheState → Nat → CacheState
  | s, 0 => s
  | s, fuel + 1 =>
    match s.cold with
    | [] => s
    | i :: _ => pruneFrom (finishErase s i) fuel

/-- Modelled from the spec: `Cache::Prune` drains the whole cold list. -/
def prune (s : CacheState) : CacheState :=
  pruneFrom s s.cold.length

/-- Modelled from the spec: `Cache::NewId` (cache.h lines 133-143, spec.md
section 4.4): a per-instance monotonic counter, pre-incremented on each call.
The spec guarantees strictly increasing ids, so the counter is modelled as an
unbounded natural number. -/
def newId (s : CacheState) : Nat × CacheState :=
  (s.idCounter + 1, { s with idCounter := s.idCounter + 1 })

/-- `Cache::TotalCharge` (cache.h lines 158-164): the running total charge. -/
def totalCharge (s : CacheState) : Nat :=
  s.usage

/-- Modelled from the spec: the cache destructor (cache.h lines 49-51)
destroys every entry still present by invoking its deleter.  Its contract
requires every handle to have been released, so each remaining in-cache entry
is on the cold list and teardown drains that list. -/
def destroyCache (s : CacheState) : CacheState :=
  pruneFrom s s.cold.length

/-- One public operation of the cache API, for reasoning about operation
sequences.  `rel` carries the key alongside the handle because the sharded
front door locates a handle's shard through its key's hash (spec.md section
4.4); the unsharded cache ignores the key. -/
inductive Op where
  | ins (k v c : Nat)
  | look (k : Nat)
  | rel (k i : Nat)
  | ers (k : Nat)
  | prune
  | newid
deriving DecidableEq

/-- Apply one operation to the unsharded cache, discarding its result. -/
def applyOp (s : CacheState) : Op → CacheState
  | .ins k v c => (insert s k v c).2
  | .look k => (lookup s k).2
  | .rel _ i => release s i
  | .ers k => erase s k
  | .prune => prune s
  | .newid => (newId s).2

/-- Run a sequence of operations on the unsharded cache. -/
def run (s : CacheState) (ops : List Op) : CacheState :=
  ops.foldl applyOp s

/-! ### Basic lemmas about the slot list and the index -/

@[simp]
theorem slookup_nil (i : Nat) : slookup [] i = none := rfl

theorem slookup_cons (p : Nat × Entry) (l : List (Nat × Entry)) (i : Nat) :
    slookup (p :: l) i = if p.1 = i then some p.2 else slookup l i := rfl

theorem slookup_mem {l : List (Nat × Entry)} {i : Nat} {e : Entry}
    (h : slookup l i = some e) : (i, e) ∈ l := by
  induction l with
  | nil => simp at h
  | cons p l ih =>
    rw [slookup_cons] at h
    split at h
    · rename_i hp
      cases h
      simp_all [Prod.ext_iff]
    · exact List.mem_cons_of_mem _ (ih h)

theorem slookup_isSome_of_mem {l : List (Nat × Entry)} {p : Nat × Entry} :
    p ∈ l → ∃ e, slookup l p.1 = some e := by
  induction l with
  | nil => intro h; simp at h
  | cons q l ih =>
    intro h
    rw [slookup_cons]
    by_cases hq : q.1 = p.1
    · exact ⟨q.2, by simp [hq]⟩
    · rcases List.mem_cons.mp h with h | h
      · exact absurd (h ▸ rfl) hq
      · simpa [hq] using ih h

theorem slookup_eq_none_of_fresh {l : List (Nat × Entry)} {i : Nat}
    (h : ∀ p ∈ l, p.1 ≠ i) : slookup l i = none := by
  induction l with
  | nil => rfl
  | cons p l ih =>
    rw [slookup_cons, if_neg (h p (List.mem_cons_self p l))]
    exact ih fun q hq => h q (List.mem_cons_of_mem _ hq)

theorem slookup_append_of_some {l l' : List (Nat × Entry)} {i : Nat} {e : Entry}
    (h : slookup l i = some e) : slookup (l ++ l') i = some e := by
  induction l with
  | nil => simp at h
  | cons p l ih =>
    rw [slookup_cons] at h
    rw [List.cons_append, slookup_cons]
    split at h <;> split <;> simp_all

theorem slookup_append_of_none {l l' : List (Nat × Entry)} {i : Nat}
    (h : slookup l i = none) : slookup (l ++ l') i = slookup l' i := by
  induction l with
  | nil => simp
  | cons p l ih =>
    rw [slookup_cons] at h
    rw [List.cons_append, slookup_cons]
    split at h <;> split <;> simp_all

@[simp]
theorem supd_nil (i : Nat) (e : Entry) : supd [] i e = [] := rfl

theorem supd_cons (p : Nat × Entry) (l : List (Nat × Entry)) (i : Nat) (e : Entry) :
    supd (p :: l) i e = (if p.1 = i then (i, e) else p) :: supd l i e := rfl

theorem slookup_supd_self {l : List (Nat × Entry)} {i : Nat} {e₀ : Entry}
    (h : slookup l i = some e₀) (e : Entry) : slookup (supd l i e) i = some e := by
  induction l with
  | nil => simp at h
  | cons p l ih =>
    rw [slookup_cons] at h
    rw [supd_cons]
    split at h
    · rename_i hp
      rw [if_pos hp, slookup_cons, if_pos rfl]
    · rename_i hp
      rw [if_neg hp, slookup_cons, if_neg hp]
      exact ih h

theorem slookup_supd_ne {l : List (Nat × Entry)} {i j : Nat} (e : Entry)
    (h : j ≠ i) : slookup (supd l i e) j = slookup l j := by
  induction l with
  | nil => rfl
  | cons p l ih =>
    rw [supd_cons, slookup_cons, slookup_cons]
    by_cases hp : p.1 = i
    · rw [if_pos hp]
      simp only [Ne.symm h, if_false]
      rw [if_neg (by rw [hp]; exact fun hij => h hij.symm)]
      exact ih
    · rw [if_neg hp]
      split <;> simp_all

theorem slookup_supd_none {l : List (Nat × Entry)} {i j : Nat} (e : Entry)
    (h : slookup l j = none) : slookup (supd l i e) j = none := by
  induction l with
  | nil => rfl
  | cons p l ih =>
    rw [slookup_cons] at h
    split at h
    · simp at h
    · rename_i hp
      rw [supd_cons, slookup_cons]
      by_cases hpi : p.1 = i
      · rw [if_pos hpi]
        have : ¬ i = j := fun hij => hp (hpi.trans hij)
        simpa [this] using ih h
      · rw [if_neg hpi, if_neg hp]
        exact ih h

theorem mem_supd {l : List (Nat × Entry)} {i : Nat} {e : Entry} {p : Nat × Entry} :
    p ∈ supd l i e → (p.1 = i ∧ p.2 = e) ∨ (p ∈ l ∧ p.1 ≠ i) := by
  induction l with
  | nil => intro h; simp [supd] at h
  | cons q l ih =>
    intro h
    rw [supd_cons] at h
    rcases List.mem_cons.mp h with h | h
    · by_cases hq : q.1 = i
      · rw [if_pos hq] at h
        exact Or.inl (by simp [h])
      · rw [if_neg hq] at h
        exact Or.inr ⟨h ▸ List.mem_cons_self q l, h ▸ hq⟩
    · rcases ih h with h' | h'
      · exact Or.inl h'
      · exact Or.inr ⟨List.mem_cons_of_mem _ h'.1, h'.2⟩

theorem supd_map_fst (l : List (Nat × Entry)) (i : Nat) (e : Entry) :
    (supd l i e).map (·.1) = l.map (·.1) := by
  induction l with
  | nil => rfl
  | cons p l ih =>
    rw [supd_cons]
    by_cases hp : p.1 = i <;> simp [hp, ih]

theorem supd_eq_self {l : List (Nat × Entry)} {i : Nat} (e : Entry)
    (h : ∀ p ∈ l, p.1 ≠ i) : supd l i e = l := by
  induction l with
  | nil => rfl
  | cons p l ih =>
    rw [supd_cons, if_neg (h p (List.mem_cons_self p l))]
    rw [ih fun q hq => h q (List.mem_cons_of_mem _ hq)]

theorem supd_append (l l' : List (Nat × Entry)) (i : Nat) (e : Entry) :
    supd (l ++ l') i e = supd l i e ++ supd l' i e :=
  List.map_append _ _ _

@[simp]
theorem srem_nil (i : Nat) : srem [] i = [] := rfl

theorem srem_cons (p : Nat × Entry) (l : List (Nat × Entry)) (i : Nat) :
    srem (p :: l) i = if p.1 = i then srem l i else p :: srem l i := rfl

theorem slookup_srem_self (l : List (Nat × Entry)) (i : Nat) :
    slookup (srem l i) i = none := by
  induction l with
  | nil => rfl
  | cons p l ih =>
    rw [srem_cons]
    by_cases hp : p.1 = i
    · rw [if_pos hp]; exact ih
    · rw [if_neg hp, slookup_cons, if_neg hp]; exact ih

theorem slookup_srem_ne {l : List (Nat × Entry)} {i j : Nat} (h : j ≠ i) :
    slookup (srem l i) j = slookup l j := by
  induction l with
  | nil => rfl
  | cons p l ih =>
    rw [srem_cons, slookup_cons]
    by_cases hp : p.1 = i
    · rw [if_pos hp, if_neg (fun hpj : p.1 = j => h (hpj ▸ hp ▸ rfl))]
      exact ih
    · rw [if_neg hp, slookup_cons]
      split <;> simp_all

theorem mem_srem {l : List (Nat × Entry)} {i : Nat} {p : Nat × Entry} :
    p ∈ srem l i → p ∈ l ∧ p.1 ≠ i := by
  induction l with
  | nil => intro h; simp at h
  | cons q l ih =>
    intro h
    rw [srem_cons] at h
    by_cases hq : q.1 = i
    · rw [if_pos hq] at h
      exact ⟨List.mem_cons_of_mem _ (ih h).1, (ih h).2⟩
    · rw [if_neg hq] at h
      rcases List.mem_cons.mp h with h | h
      · exact ⟨h ▸ List.mem_cons_self q l, h ▸ hq⟩
      · exact ⟨List.mem_cons_of_mem _ (ih h).1, (ih h).2⟩

theorem srem_sublist (l : List (Nat × Entry)) (i : Nat) : List.Sublist (srem l i) l := by
  induction l with
  | nil => simp
  | cons p l ih =>
    rw [srem_cons]
    by_cases hp : p.1 = i
    · rw [if_pos hp]; exact ih.cons p
    · rw [if_neg hp]; exact ih.cons₂ p

theorem srem_eq_self {l : List (Nat × Entry)} {i : Nat}
    (h : ∀ p ∈ l, p.1 ≠ i) : srem l i = l := by
  induction l with
  | nil => rfl
  | cons p l ih =>
    rw [srem_cons, if_neg (h p (List.mem_cons_self p l))]
    rw [ih fun q hq => h q (List.mem_cons_of_mem _ hq)]

theorem srem_supd (l : List (Nat × Entry)) (i : Nat) (e : Entry) :
    srem (supd l i e) i = srem l i := by
  induction l with
  | nil => rfl
  | cons p l ih =>
    rw [supd_cons]
    by_cases hp : p.1 = i
    · rw [if_pos hp, srem_cons, if_pos rfl, srem_cons, if_pos hp]
      exact ih
    · rw [if_neg hp, srem_cons, if_neg hp, srem_cons, if_neg hp, ih]

@[simp]
theorem ilook_nil (k : Nat) : ilook [] k = none := rfl

theorem ilook_cons (p : Nat × Entry) (l : List (Nat × Entry)) (k : Nat) :
    ilook (p :: l) k =
      if p.2.inCache = true ∧ p.2.key = k then some p.1 else ilook l k := rfl

theorem ilook_eq_none_of_keys {l : List (Nat × Entry)} {k : Nat}
    (h : ∀ p ∈ l, p.2.inCache = true → p.2.key ≠ k) : ilook l k = none := by
  induction l with
  | nil => rfl
  | cons p l ih =>
    rw [ilook_cons, if_neg (fun hc => h p (List.mem_cons_self p l) hc.1 hc.2)]
    exact ih fun q hq => h q (List.mem_cons_of_mem _ hq)

theorem ilook_none_forall {l : List (Nat × Entry)} {k : Nat} :
    ilook l k = none → ∀ p ∈ l, p.2.inCache = true → p.2.key ≠ k := by
  induction l with
  | nil => intro _; simp
  | cons p l ih =>
    intro h
    rw [ilook_cons] at h
    split at h
    · simp at h
    · rename_i hc
      intro q hq hin hk
      rcases List.mem_cons.mp hq with hq | hq
      · exact hc (hq ▸ ⟨hin, hk⟩)
      · exact ih h q hq hin hk

theorem ilook_some_mem {l : List (Nat × Entry)} {k i : Nat}
    (h : ilook l k = some i) :
    ∃ e, (i, e) ∈ l ∧ e.inCache = true ∧ e.key = k := by
  induction l with
  | nil => simp at h
  | cons p l ih =>
    rw [ilook_cons] at h
    split at h
    · rename_i hc
      cases h
      exact ⟨p.2, by simp [hc]⟩
    · rcases ih h with ⟨e, he, h1, h2⟩
      exact ⟨e, List.mem_cons_of_mem _ he, h1, h2⟩

theorem ilook_some_slookup {l : List (Nat × Entry)} {k i : Nat}
    (hn : (l.map (·.1)).Nodup) (h : ilook l k = some i) :
    ∃ e, slookup l i = some e ∧ e.inCache = true ∧ e.key = k := by
  induction l with
  | nil => simp at h
  | cons p l ih =>
    rw [ilook_cons] at h
    rw [List.map_cons, List.nodup_cons] at hn
    split at h
    · rename_i hc
      cases h
      exact ⟨p.2, by rw [slookup_cons, if_pos rfl], hc.1, hc.2⟩
    · rcases ih hn.2 h with ⟨e, he, h1, h2⟩
      refine ⟨e, ?_, h1, h2⟩
      rw [slookup_cons, if_neg ?_]
      · exact he
      · intro hpi
        rcases ilook_some_mem h with ⟨e', he', _, _⟩
        exact hn.1 (hpi ▸ List.mem_map_of_mem (·.1) he')

theorem ilook_isSome_of_mem {l : List (Nat × Entry)} {k i : Nat} {e : Entry}
    (hin : e.inCache = true) (hk : e.key = k) :
    (i, e) ∈ l → ∃ j, ilook l k = some j := by
  induction l with
  | nil => intro h; simp at h
  | cons p l ih =>
    intro h
    rw [ilook_cons]
    by_cases hc : p.2.inCache = true ∧ p.2.key = k
    · exact ⟨p.1, by rw [if_pos hc]⟩
    · rcases List.mem_cons.mp h with h | h
      · exact absurd (by simp [← h, hin, hk]) hc
      · simpa [hc] using ih h

/-! ### The state invariant -/

/-- A predicate on the entry possibly stored in an `Option`, false on `none`;
used to keep the invariant decidable. -/
def optHolds (P : Entry → Prop) : Option Entry → Prop
  | none => False
  | some e => P e

instance (P : Entry → Prop) [DecidablePred P] :
    (o : Option Entry) → Decidable (optHolds P o)
  | none => isFalse (fun h => h)
  | some e => if h : P e then isTrue h else isFalse h

theorem optHolds_iff (P : Entry → Prop) (o : Option Entry) :
    optHolds P o ↔ ∃ e, o = some e ∧ P e := by
  cases o <;> simp [optHolds]

/-- Well-formedness of a cache state, maintained by every operation: slot ids
are unique and below `nextId`; the cold list holds exactly the in-cache
entries whose only reference is the cache's own, each id once; at most one
in-cache entry holds any key; live entries are referenced; deleter records
concern destroyed (absent) ids, one record per id. -/
@[mk_iff inv_iff]
structure Inv (s : CacheState) : Prop where
  idsNodup : (s.slots.map (·.1)).Nodup
  slotFresh : ∀ p ∈ s.slots, p.1 < s.nextId
  coldFresh : ∀ i ∈ s.cold, i < s.nextId
  coldNodup : s.cold.Nodup
  coldSound : ∀ i ∈ s.cold,
    optHolds (fun e => e.inCache = true ∧ e.refs = 1) (slookup s.slots i)
  coldComplete : ∀ p ∈ s.slots, p.2.inCache = true → p.2.refs = 1 → p.1 ∈ s.cold
  keyUnique : ∀ p ∈ s.slots, ∀ q ∈ s.slots,
    p.2.inCache = true → q.2.inCache = true → p.2.key = q.2.key → p.1 = q.1
  refsPos : ∀ p ∈ s.slots, 1 ≤ p.2.refs
  delFresh : ∀ d ∈ s.deleted, d.1 < s.nextId ∧ slookup s.slots d.1 = none
  delNodup : (s.deleted.map (·.1)).Nodup

instance (s : CacheState) : Decidable (Inv s) :=
  decidable_of_iff _ (inv_iff s).symm

theorem inv_initC (cap : Nat) : Inv (initC cap) := by
  constructor <;> simp [initC]

/-- The entry a cold id refers to: unfolded form of `coldSound`. -/
theorem Inv.cold_entry {s : CacheState} (hInv : Inv s) {i : Nat} (h : i ∈ s.cold) :
    ∃ e, slookup s.slots i = some e ∧ e.inCache = true ∧ e.refs = 1 := by
  have := hInv.coldSound i h
  rw [optHolds_iff] at this
  rcases this with ⟨e, h1, h2, h3⟩
  exact ⟨e, h1, h2, h3⟩

theorem Inv.not_cold_of_refs {s : CacheState} (hInv : Inv s) {i : Nat} {e : Entry}
    (hs : slookup s.slots i = some e) (h : e.refs ≠ 1) : i ∉ s.cold := by
  intro hc
  rcases hInv.cold_entry hc with ⟨e', he', _, hr⟩
  rw [hs] at he'
  cases he'
  exact h hr

theorem Inv.not_cold_of_notInCache {s : CacheState} (hInv : Inv s) {i : Nat}
    (hs : ∀ e, slookup s.slots i = some e → e.inCache = false) : i ∉ s.cold := by
  intro hc
  rcases hInv.cold_entry hc with ⟨e', he', hin, _⟩
  rw [hs e' he'] at hin
  cases hin

theorem Inv.slookup_fresh {s : CacheState} (hInv : Inv s) {i : Nat}
    (h : s.nextId ≤ i) : slookup s.slots i = none := by
  apply slookup_eq_none_of_fresh
  intro p hp hpi
  exact absurd (hpi ▸ hInv.slotFresh p hp) (by omega)

/-! ### Characterisations of `finishErase` -/

theorem finishErase_none {s : CacheState} {j : Nat}
    (h : slookup s.slots j = none) : finishErase s j = s := by
  unfold finishErase
  rw [h]

theorem finishErase_notInCache {s : CacheState} {j : Nat} {e : Entry}
    (h : slookup s.slots j = some e) (hin : e.inCache = false) :
    finishErase s j = s := by
  unfold finishErase
  rw [h]
  simp [hin]

theorem finishErase_destroy {s : CacheState} {j : Nat} {e : Entry}
    (h : slookup s.slots j = some e) (hin : e.inCache = true) (hr : e.refs ≤ 1) :
    finishErase s j =
      { s with slots := srem s.slots j,
               cold := s.cold.filter (fun x => x != j),
               usage := s.usage - e.charge,
               deleted := s.deleted ++ [(j, e.key, e.value)] } := by
  unfold finishErase
  rw [h]
  dsimp only
  rw [if_pos hin]
  unfold unref
  rw [show slookup (supd s.slots j { e with inCache := false }) j
        = some { e with inCache := false } from slookup_supd_self h _]
  simp only [hr, if_pos]
  simp [srem_supd]

theorem finishErase_detach {s : CacheState} {j : Nat} {e : Entry}
    (h : slookup s.slots j = some e) (hin : e.inCache = true) (hr : 2 ≤ e.refs) :
    finishErase s j =
      { s with slots := supd s.slots j ⟨e.key, e.value, e.charge, e.refs - 1, false⟩,
               cold := s.cold.filter (fun x => x != j),
               usage := s.usage - e.charge } := by
  unfold finishErase
  rw [h]
  dsimp only
  rw [if_pos hin]
  unfold unref
  rw [show slookup (supd s.slots j { e with inCache := false }) j
        = some { e with inCache := false } from slookup_supd_self h _]
  dsimp only
  rw [if_neg (by simp; omega)]
  have : supd (supd s.slots j { e with inCache := false }) j
      ⟨e.key, e.value, e.charge, e.refs - 1, false⟩
      = supd s.slots j ⟨e.key, e.value, e.charge, e.refs - 1, false⟩ := by
    unfold supd
    rw [List.map_map]
    apply List.map_congr_left
    intro p _
    by_cases hp : p.1 = j <;> simp [hp]
  simp only [this]

theorem finishErase_capacity (s : CacheState) (j : Nat) :
    (finishErase s j).capacity = s.capacity := by
  rcases h : slookup s.slots j with _ | e
  · rw [finishErase_none h]
  · rcases he : e.inCache with _ | _
    · rw [finishErase_notInCache h he]
    · by_cases hr : e.refs ≤ 1
      · rw [finishErase_destroy h he hr]
      · rw [finishErase_detach h he (by omega)]

theorem finishErase_nextId (s : CacheState) (j : Nat) :
    (finishErase s j).nextId = s.nextId := by
  rcases h : slookup s.slots j with _ | e
  · rw [finishErase_none h]
  · rcases he : e.inCache with _ | _
    · rw [finishErase_notInCache h he]
    · by_cases hr : e.refs ≤ 1
      · rw [finishErase_destroy h he hr]
      · rw [finishErase_detach h he (by omega)]

theorem finishErase_idCounter (s : CacheState) (j : Nat) :
    (finishErase s j).idCounter = s.idCounter := by
  rcases h : slookup s.slots j with _ | e
  · rw [finishErase_none h]
  · rcases he : e.inCache with _ | _
    · rw [finishErase_notInCache h he]
    · by_cases hr : e.refs ≤ 1
      · rw [finishErase_destroy h he hr]
      · rw [finishErase_detach h he (by omega)]

/-! ### Invariant preservation -/

theorem inv_finishErase (s : CacheState) (j : Nat) (hInv : Inv s) :
    Inv (finishErase s j) := by
  rcases h : slookup s.slots j with _ | e
  · rw [finishErase_none h]; exact hInv
  · rcases he : e.inCache with _ | _
    · rw [finishErase_notInCache h he]; exact hInv
    · have hjmem := slookup_mem h
      by_cases hr : e.refs ≤ 1
      · rw [finishErase_destroy h he hr]
        constructor
        · exact hInv.idsNodup.sublist ((srem_sublist _ _).map _)
        · intro p hp
          exact hInv.slotFresh p (mem_srem hp).1
        · intro i hi
          exact hInv.coldFresh i (List.mem_filter.mp hi).1
        · exact hInv.coldNodup.filter _
        · intro i hi
          rcases List.mem_filter.mp hi with ⟨hi', hne⟩
          have hij : i ≠ j := by simpa using hne
          rcases hInv.cold_entry hi' with ⟨e', he', h1, h2⟩
          rw [optHolds_iff]
          refine ⟨e', ?_, h1, h2⟩
          rw [slookup_srem_ne hij]
          exact he'
        · intro p hp hin hr1
          rcases mem_srem hp with ⟨hp', hpj⟩
          refine List.mem_filter.mpr ⟨hInv.coldComplete p hp' hin hr1, by simpa using hpj⟩
        · intro p hp q hq hpin hqin hk
          exact hInv.keyUnique p (mem_srem hp).1 q (mem_srem hq).1 hpin hqin hk
        · intro p hp
          exact hInv.refsPos p (mem_srem hp).1
        · intro d hd
          rcases List.mem_append.mp hd with hd | hd
          · rcases hInv.delFresh d hd with ⟨h1, h2⟩
            refine ⟨h1, ?_⟩
            by_cases hdj : d.1 = j
            · rw [hdj]; exact slookup_srem_self _ _
            · rw [slookup_srem_ne hdj]; exact h2
          · rcases List.mem_singleton.mp hd with rfl
            exact ⟨hInv.slotFresh _ hjmem, slookup_srem_self _ _⟩
        · rw [List.map_append]
          refine hInv.delNodup.append (by simp) ?_
          intro a ha hb
          rcases List.mem_map.mp ha with ⟨d, hd, rfl⟩
          simp only [List.map_cons, List.map_nil, List.mem_singleton] at hb
          have := (hInv.delFresh d hd).2
          rw [hb, h] at this
          cases this
      · rw [finishErase_detach h he (by omega)]
        constructor
        · rw [supd_map_fst]; exact hInv.idsNodup
        · intro p hp
          rcases mem_supd hp with ⟨h1, _⟩ | ⟨h1, _⟩
          · rw [h1]; exact hInv.slotFresh _ hjmem
          · exact hInv.slotFresh p h1
        · intro i hi
          exact hInv.coldFresh i (List.mem_filter.mp hi).1
        · exact hInv.coldNodup.filter _
        · intro i hi
          rcases List.mem_filter.mp hi with ⟨hi', hne⟩
          have hij : i ≠ j := by simpa using hne
          rcases hInv.cold_entry hi' with ⟨e', he', h1, h2⟩
          rw [optHolds_iff]
          refine ⟨e', ?_, h1, h2⟩
          rw [slookup_supd_ne _ hij]
          exact he'
        · intro p hp hin hr1
          rcases mem_supd hp with ⟨_, h2⟩ | ⟨h1, hpj⟩
          · rw [h2] at hin
            cases hin
          · refine List.mem_filter.mpr ⟨hInv.coldComplete p h1 hin hr1, by simpa using hpj⟩
        · intro p hp q hq hpin hqin hk
          rcases mem_supd hp with ⟨_, h2⟩ | ⟨hp1, _⟩
          · rw [h2] at hpin; cases hpin
          rcases mem_supd hq with ⟨_, h2⟩ | ⟨hq1, _⟩
          · rw [h2] at hqin; cases hqin
          exact hInv.keyUnique p hp1 q hq1 hpin hqin hk
        · intro p hp
          rcases mem_supd hp with ⟨_, h2⟩ | ⟨h1, _⟩
          · rw [h2]; simp; omega
          · exact hInv.refsPos p h1
        · intro d hd
          rcases hInv.delFresh d hd with ⟨h1, h2⟩
          exact ⟨h1, slookup_supd_none _ h2⟩
        · exact hInv.delNodup

theorem inv_evictFrom (fuel : Nat) :
    ∀ s : CacheState, Inv s → Inv (evictFrom s fuel) := by
  induction fuel with
  | zero => intro s hInv; exact hInv
  | succ fuel ih =>
    intro s hInv
    unfold evictFrom
    split
    · rcases hc : s.cold with _ | ⟨i, t⟩
      · exact hInv
      · exact ih _ (inv_finishErase s i hInv)
    · exact hInv

theorem inv_evict (s : CacheState) (hInv : Inv s) : Inv (evict s) :=
  inv_evictFrom _ s hInv

theorem inv_pruneFrom (fuel : Nat) :
    ∀ s : CacheState, Inv s → Inv (pruneFrom s fuel) := by
  induction fuel with
  | zero => intro s hInv; exact hInv
  | succ fuel ih =>
    intro s hInv
    unfold pruneFrom
    rcases hc : s.cold with _ | ⟨i, t⟩
    · exact hInv
    · exact ih _ (inv_finishErase s i hInv)

theorem inv_prune (s : CacheState) (hInv : Inv s) : Inv (prune s) :=
  inv_pruneFrom _ s hInv

theorem inv_erase (s : CacheState) (k : Nat) (hInv : Inv s) : Inv (erase s k) := by
  unfold erase
  rcases ilook s.slots k with _ | j
  · exact hInv
  · exact inv_finishErase s j hInv

theorem inv_insertDisplace (s : CacheState) (k : Nat) (hInv : Inv s) :
    Inv (insertDisplace s k) := by
  unfold insertDisplace
  rcases ilook s.slots k with _ | j
  · exact hInv
  · exact inv_finishErase s j hInv

/-- After the displacement step of `Insert`, no in-cache entry holds the new
key (uses the key-uniqueness invariant). -/
theorem displace_key_clear (s : CacheState) (k : Nat) (hInv : Inv s) :
    ∀ p ∈ (insertDisplace s k).slots, p.2.inCache = true → p.2.key ≠ k := by
  unfold insertDisplace
  rcases hl : ilook s.slots k with _ | j
  · exact ilook_none_forall hl
  · dsimp only
    rcases ilook_some_slookup hInv.idsNodup hl with ⟨ej, hej, hjin, hjk⟩
    have hjmem := slookup_mem hej
    by_cases hr : ej.refs ≤ 1
    · rw [finishErase_destroy hej hjin hr]
      intro p hp hin hk
      rcases mem_srem hp with ⟨hp', hpj⟩
      exact hpj (hInv.keyUnique p hp' (j, ej) hjmem hin hjin (hk.trans hjk.symm))
    · rw [finishErase_detach hej hjin (by omega)]
      intro p hp hin hk
      rcases mem_supd hp with ⟨_, h2⟩ | ⟨hp', hpj⟩
      · rw [h2] at hin; cases hin
      · exact hpj (hInv.keyUnique p hp' (j, ej) hjmem hin hjin (hk.trans hjk.symm))

theorem slookup_singleton (i j : Nat) (e : Entry) :
    slookup [(i, e)] j = if i = j then some e else none := by
  rw [slookup_cons]
  rfl

/-- The intermediate state of `Insert` just after appending the fresh entry;
the eviction loop then runs on it. -/
theorem inv_insertMid (s1 : CacheState) (k v c : Nat) (h1 : Inv s1)
    (hclear : ∀ p ∈ s1.slots, p.2.inCache = true → p.2.key ≠ k) :
    Inv { s1 with slots := s1.slots ++ [(s1.nextId, ⟨k, v, c, 2, true⟩)],
                  nextId := s1.nextId + 1,
                  usage := s1.usage + c } := by
  constructor
  · rw [List.map_append]
    refine h1.idsNodup.append (by simp) ?_
    intro a ha hb
    rcases List.mem_map.mp ha with ⟨p, hp, rfl⟩
    simp only [List.map_cons, List.map_nil, List.mem_singleton] at hb
    exact absurd (hb ▸ h1.slotFresh p hp) (by omega)
  · intro p hp
    rcases List.mem_append.mp hp with hp | hp
    · have := h1.slotFresh p hp
      simp only []
      omega
    · rcases List.mem_singleton.mp hp with rfl
      simp
  · intro i hi
    have := h1.coldFresh i hi
    simp only []
    omega
  · exact h1.coldNodup
  · intro i hi
    rcases h1.cold_entry hi with ⟨e', he', hin', hr'⟩
    rw [optHolds_iff]
    exact ⟨e', slookup_append_of_some he', hin', hr'⟩
  · intro p hp hin hr1
    rcases List.mem_append.mp hp with hp | hp
    · exact h1.coldComplete p hp hin hr1
    · rcases List.mem_singleton.mp hp with rfl
      simp at hr1
  · intro p hp q hq hpin hqin hk
    rcases List.mem_append.mp hp with hp | hp <;>
      rcases List.mem_append.mp hq with hq | hq
    · exact h1.keyUnique p hp q hq hpin hqin hk
    · rcases List.mem_singleton.mp hq with rfl
      exact absurd (by simpa using hk) (hclear p hp hpin)
    · rcases List.mem_singleton.mp hp with rfl
      exact absurd (by simpa using hk.symm) (hclear q hq hqin)
    · rcases List.mem_singleton.mp hp with rfl
      rcases List.mem_singleton.mp hq with rfl
      rfl
  · intro p hp
    rcases List.mem_append.mp hp with hp | hp
    · exact h1.refsPos p hp
    · rcases List.mem_singleton.mp hp with rfl
      simp
  · intro d hd
    rcases h1.delFresh d hd with ⟨hlt, hnone⟩
    constructor
    · simp only []
      omega
    · rw [slookup_append_of_none hnone, slookup_singleton,
        if_neg (by omega)]
  · exact h1.delNodup

theorem inv_insert (s : CacheState) (k v c : Nat) (hInv : Inv s) :
    Inv (insert s k v c).2 := by
  unfold insert
  exact inv_evict _
    (inv_insertMid (insertDisplace s k) k v c (inv_insertDisplace s k hInv)
      (displace_key_clear s k hInv))

theorem inv_lookup (s : CacheState) (k : Nat) (hInv : Inv s) :
    Inv (lookup s k).2 := by
  unfold lookup
  rcases hl : ilook s.slots k with _ | i
  · exact hInv
  · dsimp only
    rcases hs : slookup s.slots i with _ | e
    · exact hInv
    · dsimp only
      have himem := slookup_mem hs
      constructor
      · rw [supd_map_fst]; exact hInv.idsNodup
      · intro p hp
        rcases mem_supd hp with ⟨h1, _⟩ | ⟨h1, _⟩
        · rw [h1]; exact hInv.slotFresh _ himem
        · exact hInv.slotFresh p h1
      · intro i' hi
        exact hInv.coldFresh i' (List.mem_filter.mp hi).1
      · exact hInv.coldNodup.filter _
      · intro i' hi
        rcases List.mem_filter.mp hi with ⟨hi', hne⟩
        have hii : i' ≠ i := by simpa using hne
        rcases hInv.cold_entry hi' with ⟨e', he', h1, h2⟩
        rw [optHolds_iff]
        refine ⟨e', ?_, h1, h2⟩
        rw [slookup_supd_ne _ hii]
        exact he'
      · intro p hp hin hr1
        rcases mem_supd hp with ⟨h1, h2⟩ | ⟨h1, hpj⟩
        · rw [h2] at hr1
          have h3 : 1 ≤ e.refs := hInv.refsPos _ himem
          simp at hr1
          exact absurd hr1 (by omega)
        · exact List.mem_filter.mpr
            ⟨hInv.coldComplete p h1 hin hr1, by simpa using hpj⟩
      · intro p hp q hq hpin hqin hk
        rcases mem_supd hp with ⟨hp1, hp2⟩ | ⟨hp1, _⟩ <;>
          rcases mem_supd hq with ⟨hq1, hq2⟩ | ⟨hq1, _⟩
        · rw [hp1, hq1]
        · rw [hp2] at hpin hk
          rw [hp1]
          exact hInv.keyUnique (i, e) himem q hq1 hpin hqin hk
        · rw [hq2] at hqin hk
          rw [hq1]
          exact hInv.keyUnique p hp1 (i, e) himem hpin hqin hk
        · exact hInv.keyUnique p hp1 q hq1 hpin hqin hk
      · intro p hp
        rcases mem_supd hp with ⟨_, h2⟩ | ⟨h1, _⟩
        · rw [h2]; simp
        · exact hInv.refsPos p h1
      · intro d hd
        rcases hInv.delFresh d hd with ⟨h1, h2⟩
        exact ⟨h1, slookup_supd_none _ h2⟩
      · exact hInv.delNodup

theorem inv_release (s : CacheState) (i : Nat) (hInv : Inv s) :
    Inv (release s i) := by
  unfold release
  rcases hs : slookup s.slots i with _ | e
  · exact hInv
  · dsimp only
    have himem := slookup_mem hs
    by_cases hr : e.refs ≤ 1
    · rw [if_pos hr]
      constructor
      · exact hInv.idsNodup.sublist ((srem_sublist _ _).map _)
      · intro p hp
        exact hInv.slotFresh p (mem_srem hp).1
      · intro i' hi
        exact hInv.coldFresh i' (List.mem_filter.mp hi).1
      · exact hInv.coldNodup.filter _
      · intro i' hi
        rcases List.mem_filter.mp hi with ⟨hi', hne⟩
        have hii : i' ≠ i := by simpa using hne
        rcases hInv.cold_entry hi' with ⟨e', he', h1, h2⟩
        rw [optHolds_iff]
        refine ⟨e', ?_, h1, h2⟩
        rw [slookup_srem_ne hii]
        exact he'
      · intro p hp hin hr1
        rcases mem_srem hp with ⟨hp', hpj⟩
        exact List.mem_filter.mpr
          ⟨hInv.coldComplete p hp' hin hr1, by simpa using hpj⟩
      · intro p hp q hq hpin hqin hk
        exact hInv.keyUnique p (mem_srem hp).1 q (mem_srem hq).1 hpin hqin hk
      · intro p hp
        exact hInv.refsPos p (mem_srem hp).1
      · intro d hd
        rcases List.mem_append.mp hd with hd | hd
        · rcases hInv.delFresh d hd with ⟨h1, h2⟩
          refine ⟨h1, ?_⟩
          by_cases hdj : d.1 = i
          · rw [hdj]; exact slookup_srem_self _ _
          · rw [slookup_srem_ne hdj]; exact h2
        · rcases List.mem_singleton.mp hd with rfl
          exact ⟨hInv.slotFresh _ himem, slookup_srem_self _ _⟩
      · rw [List.map_append]
        refine hInv.delNodup.append (by simp) ?_
        intro a ha hb
        rcases List.mem_map.mp ha with ⟨d, hd, rfl⟩
        simp only [List.map_cons, List.map_nil, List.mem_singleton] at hb
        have := (hInv.delFresh d hd).2
        rw [hb, hs] at this
        cases this
    · rw [if_neg hr]
      by_cases hdemote : e.refs = 2 ∧ e.inCache = true
      · rw [if_pos hdemote]
        have hnotcold : i ∉ s.cold :=
          hInv.not_cold_of_refs hs (by omega)
        constructor
        · rw [supd_map_fst]; exact hInv.idsNodup
        · intro p hp
          rcases mem_supd hp with ⟨h1, _⟩ | ⟨h1, _⟩
          · rw [h1]; exact hInv.slotFresh _ himem
          · exact hInv.slotFresh p h1
        · intro i' hi
          rcases List.mem_append.mp hi with hi | hi
          · exact hInv.coldFresh i' hi
          · rcases List.mem_singleton.mp hi with rfl
            exact hInv.slotFresh _ himem
        · exact hInv.coldNodup.append (by simp)
            (fun a ha hb => (List.mem_singleton.mp hb ▸ hnotcold) ha)
        · intro i' hi
          rcases List.mem_append.mp hi with hi | hi
          · have hii : i' ≠ i := fun h => (h ▸ hnotcold) hi
            rcases hInv.cold_entry hi with ⟨e', he', h1, h2⟩
            rw [optHolds_iff]
            refine ⟨e', ?_, h1, h2⟩
            rw [slookup_supd_ne _ hii]
            exact he'
          · rcases List.mem_singleton.mp hi with rfl
            rw [optHolds_iff]
            exact ⟨{ e with refs := 1 }, slookup_supd_self hs _, hdemote.2, rfl⟩
        · intro p hp hin hr1
          rcases mem_supd hp with ⟨h1, _⟩ | ⟨h1, hpj⟩
          · rw [h1]
            exact List.mem_append.mpr (Or.inr (List.mem_singleton.mpr rfl))
          · exact List.mem_append.mpr
              (Or.inl (hInv.coldComplete p h1 hin hr1))
        · intro p hp q hq hpin hqin hk
          rcases mem_supd hp with ⟨hp1, hp2⟩ | ⟨hp1, _⟩ <;>
            rcases mem_supd hq with ⟨hq1, hq2⟩ | ⟨hq1, _⟩
          · rw [hp1, hq1]
          · rw [hp2] at hpin hk
            rw [hp1]
            exact hInv.keyUnique (i, e) himem q hq1 hpin hqin hk
          · rw [hq2] at hqin hk
            rw [hq1]
            exact hInv.keyUnique p hp1 (i, e) himem hpin hqin hk
          · exact hInv.keyUnique p hp1 q hq1 hpin hqin hk
        · intro p hp
          rcases mem_supd hp with ⟨_, h2⟩ | ⟨h1, _⟩
          · rw [h2]
          · exact hInv.refsPos p h1
        · intro d hd
          rcases hInv.delFresh d hd with ⟨h1, h2⟩
          exact ⟨h1, slookup_supd_none _ h2⟩
        · exact hInv.delNodup
      · rw [if_neg hdemote]
        have hnotcold : i ∉ s.cold :=
          hInv.not_cold_of_refs hs (by omega)
        constructor
        · rw [supd_map_fst]; exact hInv.idsNodup
        · intro p hp
          rcases mem_supd hp with ⟨h1, _⟩ | ⟨h1, _⟩
          · rw [h1]; exact hInv.slotFresh _ himem
          · exact hInv.slotFresh p h1
        · exact hInv.coldFresh
        · exact hInv.coldNodup
        · intro i' hi
          have hii : i' ≠ i := fun h => (h ▸ hnotcold) hi
          rcases hInv.cold_entry hi with ⟨e', he', h1, h2⟩
          rw [optHolds_iff]
          refine ⟨e', ?_, h1, h2⟩
          rw [slookup_supd_ne _ hii]
          exact he'
        · intro p hp hin hr1
          rcases mem_supd hp with ⟨h1, h2⟩ | ⟨h1, _⟩
          · rw [h2] at hin hr1
            simp only [] at hin hr1
            exact absurd ⟨by omega, hin⟩ hdemote
          · exact hInv.coldComplete p h1 hin hr1
        · intro p hp q hq hpin hqin hk
          rcases mem_supd hp with ⟨hp1, hp2⟩ | ⟨hp1, _⟩ <;>
            rcases mem_supd hq with ⟨hq1, hq2⟩ | ⟨hq1, _⟩
          · rw [hp1, hq1]
          · rw [hp2] at hpin hk
            rw [hp1]
            exact hInv.keyUnique (i, e) himem q hq1 hpin hqin hk
          · rw [hq2] at hqin hk
            rw [hq1]
            exact hInv.keyUnique p hp1 (i, e) himem hpin hqin hk
          · exact hInv.keyUnique p hp1 q hq1 hpin hqin hk
        · intro p hp
          rcases mem_supd hp with ⟨_, h2⟩ | ⟨h1, _⟩
          · rw [h2]; simp; omega
          · exact hInv.refsPos p h1
        · intro d hd
          rcases hInv.delFresh d hd with ⟨h1, h2⟩
          exact ⟨h1, slookup_supd_none _ h2⟩
        · exact hInv.delNodup

theorem inv_newId (s : CacheState) (hInv : Inv s) : Inv (newId s).2 := by
  cases hInv
  constructor <;> assumption

theorem inv_applyOp (s : CacheState) (op : Op) (hInv : Inv s) :
    Inv (applyOp s op) := by
  cases op with
  | ins k v c => exact inv_insert s k v c hInv
  | look k => exact inv_lookup s k hInv
  | rel k i => exact inv_release s i hInv
  | ers k => exact inv_erase s k hInv
  | prune => exact inv_prune s hInv
  | newid => exact inv_newId s hInv

theorem inv_run (s : CacheState) (ops : List Op) (hInv : Inv s) :
    Inv (run s ops) := by
  induction ops generalizing s with
  | nil => exact hInv
  | cons op ops ih => exact ih _ (inv_applyOp s op hInv)

/-! ### Stability of untouched entries under eviction -/

theorem finishErase_cold_subset (s : CacheState) (j : Nat) :
    ∀ x ∈ (finishErase s j).cold, x ∈ s.cold := by
  rcases h : slookup s.slots j with _ | e
  · rw [finishErase_none h]; exact fun x hx => hx
  · rcases he : e.inCache with _ | _
    · rw [finishErase_notInCache h he]; exact fun x hx => hx
    · by_cases hr : e.refs ≤ 1
      · rw [finishErase_destroy h he hr]
        exact fun x hx => (List.mem_filter.mp hx).1
      · rw [finishErase_detach h he (by omega)]
        exact fun x hx => (List.mem_filter.mp hx).1

theorem finishErase_slookup_ne (s : CacheState) {i j : Nat} (hij : i ≠ j) :
    slookup (finishErase s j).slots i = slookup s.slots i := by
  rcases h : slookup s.slots j with _ | e
  · rw [finishErase_none h]
  · rcases he : e.inCache with _ | _
    · rw [finishErase_notInCache h he]
    · by_cases hr : e.refs ≤ 1
      · rw [finishErase_destroy h he hr]
        exact slookup_srem_ne hij
      · rw [finishErase_detach h he (by omega)]
        exact slookup_supd_ne _ hij

theorem finishErase_inCache_embed (s : CacheState) (j : Nat) :
    ∀ p ∈ (finishErase s j).slots, p.2.inCache = true → p ∈ s.slots := by
  rcases h : slookup s.slots j with _ | e
  · rw [finishErase_none h]; exact fun p hp _ => hp
  · rcases he : e.inCache with _ | _
    · rw [finishErase_notInCache h he]; exact fun p hp _ => hp
    · by_cases hr : e.refs ≤ 1
      · rw [finishErase_destroy h he hr]
        exact fun p hp _ => (mem_srem hp).1
      · rw [finishErase_detach h he (by omega)]
        intro p hp hin
        rcases mem_supd hp with ⟨_, h2⟩ | ⟨h1, _⟩
        · rw [h2] at hin; cases hin
        · exact h1

theorem evictFrom_succ (s : CacheState) (fuel : Nat) :
    evictFrom s (fuel + 1) =
      if s.capacity < s.usage then
        (match s.cold with
         | [] => s
         | i :: _ => evictFrom (finishErase s i) fuel)
      else s := rfl

theorem evictFrom_succ_nil (s : CacheState) (fuel : Nat) (hc : s.cold = []) :
    evictFrom s (fuel + 1) = s := by
  rw [evictFrom_succ, hc]
  split <;> rfl

theorem evictFrom_succ_cons (s : CacheState) (fuel j : Nat) (t : List Nat)
    (hc : s.cold = j :: t) :
    evictFrom s (fuel + 1) =
      if s.capacity < s.usage then evictFrom (finishErase s j) fuel else s := by
  rw [evictFrom_succ, hc]

theorem pruneFrom_succ (s : CacheState) (fuel : Nat) :
    pruneFrom s (fuel + 1) =
      (match s.cold with
       | [] => s
       | i :: _ => pruneFrom (finishErase s i) fuel) := rfl

theorem pruneFrom_succ_nil (s : CacheState) (fuel : Nat) (hc : s.cold = []) :
    pruneFrom s (fuel + 1) = s := by
  rw [pruneFrom_succ, hc]

theorem pruneFrom_succ_cons (s : CacheState) (fuel j : Nat) (t : List Nat)
    (hc : s.cold = j :: t) :
    pruneFrom s (fuel + 1) = pruneFrom (finishErase s j) fuel := by
  rw [pruneFrom_succ, hc]

theorem evictFrom_cold_subset (fuel : Nat) :
    ∀ s : CacheState, ∀ x ∈ (evictFrom s fuel).cold, x ∈ s.cold := by
  induction fuel with
  | zero => intro s x hx; exact hx
  | succ fuel ih =>
    intro s x hx
    rcases hc : s.cold with _ | ⟨j, t⟩
    · rw [evictFrom_succ_nil s fuel hc] at hx
      exact hc ▸ hx
    · rw [evictFrom_succ_cons s fuel j t hc] at hx
      by_cases hcap : s.capacity < s.usage
      · rw [if_pos hcap] at hx
        exact hc ▸ finishErase_cold_subset s j x (ih _ x hx)
      · rw [if_neg hcap] at hx
        exact hc ▸ hx

theorem evictFrom_slookup_stable (fuel : Nat) :
    ∀ s : CacheState, ∀ {i : Nat} {e : Entry}, i ∉ s.cold →
      slookup s.slots i = some e → slookup (evictFrom s fuel).slots i = some e := by
  induction fuel with
  | zero => intro s i e _ hs; exact hs
  | succ fuel ih =>
    intro s i e hnc hs
    rcases hc : s.cold with _ | ⟨j, t⟩
    · rw [evictFrom_succ_nil s fuel hc]
      exact hs
    · rw [evictFrom_succ_cons s fuel j t hc]
      by_cases hcap : s.capacity < s.usage
      · rw [if_pos hcap]
        have hij : i ≠ j := fun h => hnc (hc ▸ (h ▸ List.mem_cons_self j t))
        refine ih _ ?_ ?_
        · intro hmem
          exact hnc (finishErase_cold_subset s j i hmem)
        · rw [finishErase_slookup_ne s hij]
          exact hs
      · rw [if_neg hcap]
        exact hs

theorem evictFrom_inCache_embed (fuel : Nat) :
    ∀ s : CacheState, ∀ p ∈ (evictFrom s fuel).slots,
      p.2.inCache = true → p ∈ s.slots := by
  induction fuel with
  | zero => intro s p hp _; exact hp
  | succ fuel ih =>
    intro s p hp hin
    rcases hc : s.cold with _ | ⟨j, t⟩
    · rw [evictFrom_succ_nil s fuel hc] at hp
      exact hp
    · rw [evictFrom_succ_cons s fuel j t hc] at hp
      by_cases hcap : s.capacity < s.usage
      · rw [if_pos hcap] at hp
        exact finishErase_inCache_embed s j p (ih _ p hp hin) hin
      · rw [if_neg hcap] at hp
        exact hp

/-- What `Insert` guarantees about the entry it created: the returned handle
references the new entry (value, charge, two references, in cache), and it is
the only in-cache entry holding the key. -/
theorem insert_spec (s : CacheState) (k v c : Nat) (hInv : Inv s) :
    slookup (insert s k v c).2.slots (insert s k v c).1 = some ⟨k, v, c, 2, true⟩
    ∧ ∀ p ∈ (insert s k v c).2.slots, p.2.inCache = true → p.2.key = k →
        p.1 = (insert s k v c).1 := by
  have h1 : Inv (insertDisplace s k) := inv_insertDisplace s k hInv
  have hclear := displace_key_clear s k hInv
  unfold insert
  dsimp only
  have hmid : slookup ((insertDisplace s k).slots ++
      [((insertDisplace s k).nextId, (⟨k, v, c, 2, true⟩ : Entry))])
      (insertDisplace s k).nextId = some ⟨k, v, c, 2, true⟩ := by
    rw [slookup_append_of_none (h1.slookup_fresh (le_refl _)), slookup_singleton,
      if_pos rfl]
  have hnotcold : (insertDisplace s k).nextId ∉ (insertDisplace s k).cold := by
    intro hmem
    exact absurd (h1.coldFresh _ hmem) (by omega)
  constructor
  · exact evictFrom_slookup_stable _ _ hnotcold hmid
  · intro p hp hin hk
    have hp2 := evictFrom_inCache_embed _ _ p hp hin
    rcases List.mem_append.mp hp2 with hp3 | hp3
    · exact absurd hk (hclear p hp3 hin)
    · rcases List.mem_singleton.mp hp3 with rfl
      rfl

/-- The handle returned by `Insert` resolves through the index. -/
theorem insert_ilook (s : CacheState) (k v c : Nat) (hInv : Inv s) :
    ilook (insert s k v c).2.slots k = some (insert s k v c).1 := by
  rcases insert_spec s k v c hInv with ⟨hsl, huniq⟩
  rcases ilook_isSome_of_mem (e := ⟨k, v, c, 2, true⟩) rfl rfl (slookup_mem hsl)
    with ⟨j, hj⟩
  have hj' : ilook (insert s k v c).2.slots k = some j := hj
  rcases ilook_some_mem hj' with ⟨ej, hmem, hin, hk⟩
  have hji : j = (insert s k v c).1 := huniq (j, ej) hmem hin hk
  rw [hj', hji]

/-! ### C1: insert followed by lookup round-trips the value -/

/-- C1: for every key, value and charge with charge at most the capacity,
`Insert` immediately followed by `Lookup` of the same key returns a handle
(not none) — namely the one `Insert` returned — and `Value` on that handle
yields the inserted value. -/
theorem C1_insert_lookup_value (s : CacheState) (k v c : Nat) (hInv : Inv s)
    (hc : c ≤ s.capacity) :
    (lookup (insert s k v c).2 k).1 = some (insert s k v c).1
    ∧ valueOf (lookup (insert s k v c).2 k).2 (insert s k v c).1 = some v := by
  rcases insert_spec s k v c hInv with ⟨hsl, _⟩
  have hil := insert_ilook s k v c hInv
  unfold lookup
  rw [hil]
  dsimp only
  rw [hsl]
  dsimp only
  refine ⟨rfl, ?_⟩
  unfold valueOf
  dsimp only
  rw [slookup_supd_self hsl]
  rfl

/-- Witness for C1 at a concrete cache. -/
theorem C1_witness :
    Inv (initC 100) ∧ (3 : Nat) ≤ (initC 100).capacity
    ∧ ((lookup (insert (initC 100) 1 2 3).2 1).1 = some (insert (initC 100) 1 2 3).1
       ∧ valueOf (lookup (insert (initC 100) 1 2 3).2 1).2 (insert (initC 100) 1 2 3).1
          = some 2) :=
  ⟨by decide, by decide, C1_insert_lookup_value (initC 100) 1 2 3 (by decide) (by decide)⟩

/-! ### C7: lookup of an absent key -/

/-- C7: looking up a key with no current mapping returns the explicit
"no value" result and leaves the cache state entirely unchanged; no error is
signalled (the operation is total). -/
theorem C7_lookup_absent (s : CacheState) (k : Nat)
    (h : ilook s.slots k = none) : lookup s k = (none, s) := by
  unfold lookup
  rw [h]

/-- Witness for C7 at a concrete cache. -/
theorem C7_witness :
    ilook (initC 5).slots 0 = none ∧ lookup (initC 5) 0 = (none, initC 5) :=
  ⟨by decide, C7_lookup_absent (initC 5) 0 (by decide)⟩

/-! ### C8: NewId is strictly increasing -/

/-- The results of `n` successive `NewId` calls. -/
def newIds : CacheState → Nat → List Nat
  | _, 0 => []
  | s, n + 1 => (newId s).1 :: newIds (newId s).2 n

theorem newIds_gt (n : Nat) :
    ∀ s : CacheState, ∀ x ∈ newIds s n, s.idCounter < x := by
  induction n with
  | zero => intro s x hx; simp [newIds] at hx
  | succ n ih =>
    intro s x hx
    rcases List.mem_cons.mp hx with rfl | hx
    · exact Nat.lt_succ_self _
    · have h2 : ((newId s).2).idCounter = s.idCounter + 1 := rfl
      have := ih (newId s).2 x hx
      omega

/-- C8: any number of successive `NewId` calls on one cache instance return
strictly increasing values; in particular they are pairwise distinct. -/
theorem C8_newId_increasing (s : CacheState) (n : Nat) :
    (newIds s n).Pairwise (· < ·) ∧ (newIds s n).Nodup := by
  refine ⟨?_, ?_⟩
  · induction n generalizing s with
    | zero => exact List.Pairwise.nil
    | succ n ih =>
      refine List.Pairwise.cons ?_ (ih _)
      intro x hx
      have h1 := newIds_gt n (newId s).2 x hx
      have h2 : ((newId s).2).idCounter = s.idCounter + 1 := rfl
      have h3 : (newId s).1 = s.idCounter + 1 := rfl
      omega
  · have hp : (newIds s n).Pairwise (· < ·) := by
      induction n generalizing s with
      | zero => exact List.Pairwise.nil
      | succ n ih =>
        refine List.Pairwise.cons ?_ (ih _)
        intro x hx
        have h1 := newIds_gt n (newId s).2 x hx
        have h2 : ((newId s).2).idCounter = s.idCounter + 1 := rfl
        have h3 : (newId s).1 = s.idCounter + 1 := rfl
        omega
    exact hp.imp (fun hlt => Nat.ne_of_lt hlt)

/-! ### What pruning does: drain the cold list, destroy exactly its entries -/

theorem finishErase_slookup_none (s : CacheState) {i : Nat} (j : Nat)
    (h : slookup s.slots i = none) : slookup (finishErase s j).slots i = none := by
  rcases hj : slookup s.slots j with _ | e
  · rw [finishErase_none hj]; exact h
  · rcases he : e.inCache with _ | _
    · rw [finishErase_notInCache hj he]; exact h
    · by_cases hr : e.refs ≤ 1
      · rw [finishErase_destroy hj he hr]
        by_cases hij : i = j
        · rw [hij]; exact slookup_srem_self _ _
        · rw [slookup_srem_ne hij]; exact h
      · rw [finishErase_detach hj he (by omega)]
        exact slookup_supd_none _ h

theorem pruneFrom_slookup_none (fuel : Nat) :
    ∀ s : CacheState, ∀ {i : Nat}, slookup s.slots i = none →
      slookup (pruneFrom s fuel).slots i = none := by
  induction fuel with
  | zero => intro s i h; exact h
  | succ fuel ih =>
    intro s i h
    rcases hc : s.cold with _ | ⟨j, t⟩
    · rw [pruneFrom_succ_nil s fuel hc]; exact h
    · rw [pruneFrom_succ_cons s fuel j t hc]
      exact ih _ (finishErase_slookup_none s j h)

theorem pruneFrom_inCache_embed (fuel : Nat) :
    ∀ s : CacheState, ∀ p ∈ (pruneFrom s fuel).slots,
      p.2.inCache = true → p ∈ s.slots := by
  induction fuel with
  | zero => intro s p hp _; exact hp
  | succ fuel ih =>
    intro s p hp hin
    rcases hc : s.cold with _ | ⟨j, t⟩
    · rw [pruneFrom_succ_nil s fuel hc] at hp
      exact hp
    · rw [pruneFrom_succ_cons s fuel j t hc] at hp
      exact finishErase_inCache_embed s j p (ih _ p hp hin) hin

/-- The deleter record produced when a cold entry is evicted. -/
def coldRec (s : CacheState) (j : Nat) : Nat × Nat × Nat :=
  match slookup s.slots j with
  | some e => (j, e.key, e.value)
  | none => (j, 0, 0)

theorem coldRec_fst (s : CacheState) (j : Nat) : (coldRec s j).1 = j := by
  unfold coldRec
  cases slookup s.slots j <;> rfl

/-- Draining the cold list with `pruneFrom`: the cold list empties, exactly
its entries are destroyed (deleter records appended in cold-list order), and
every entry with two or more references survives untouched. -/
theorem pruneFrom_spec (fuel : Nat) :
    ∀ s : CacheState, Inv s → s.cold.length ≤ fuel →
      (pruneFrom s fuel).cold = []
      ∧ (pruneFrom s fuel).deleted = s.deleted ++ s.cold.map (coldRec s)
      ∧ (∀ j ∈ s.cold, slookup (pruneFrom s fuel).slots j = none)
      ∧ (∀ i e, slookup s.slots i = some e → 2 ≤ e.refs →
          slookup (pruneFrom s fuel).slots i = some e) := by
  induction fuel with
  | zero =>
    intro s hInv hlen
    have hc : s.cold = [] := List.eq_nil_of_length_eq_zero (by omega)
    refine ⟨hc, ?_, by simp [hc], fun i e hs _ => hs⟩
    show s.deleted = s.deleted ++ List.map (coldRec s) s.cold
    rw [hc]
    simp
  | succ fuel ih =>
    intro s hInv hlen
    rcases hc : s.cold with _ | ⟨j, t⟩
    · rw [pruneFrom_succ_nil s fuel hc]
      exact ⟨hc, by simp [hc], by simp [hc], fun i e hs _ => hs⟩
    · rw [pruneFrom_succ_cons s fuel j t hc]
      rcases hInv.cold_entry (hc ▸ List.mem_cons_self j t) with ⟨ej, hej, hin, hr⟩
      have hfe := finishErase_destroy hej hin (by omega)
      have hInv' : Inv (finishErase s j) := inv_finishErase s j hInv
      have hjt : j ∉ t := by
        have hn := hInv.coldNodup
        rw [hc] at hn
        exact (List.nodup_cons.mp hn).1
      have hcold' : (finishErase s j).cold = t := by
        rw [hfe]
        show s.cold.filter (fun x => x != j) = t
        rw [hc, List.filter_cons_of_neg (by simp)]
        refine List.filter_eq_self.mpr ?_
        intro a ha
        simp only [bne_iff_ne, ne_eq, decide_eq_true_eq]
        exact fun h => hjt (h ▸ ha)
      have hlen' : (finishErase s j).cold.length ≤ fuel := by
        rw [hcold']
        have : s.cold.length = t.length + 1 := by rw [hc]; rfl
        omega
      rcases ih (finishErase s j) hInv' hlen' with ⟨ih1, ih2, ih3, ih4⟩
      have hslots' : (finishErase s j).slots = srem s.slots j := by rw [hfe]
      have hdel' : (finishErase s j).deleted = s.deleted ++ [(j, ej.key, ej.value)] := by
        rw [hfe]
      refine ⟨ih1, ?_, ?_, ?_⟩
      · rw [ih2, hdel', hcold', List.map_cons]
        have hmap : t.map (coldRec (finishErase s j)) = t.map (coldRec s) := by
          apply List.map_congr_left
          intro x hx
          have hxj : x ≠ j := fun h => hjt (h ▸ hx)
          unfold coldRec
          rw [hslots', slookup_srem_ne hxj]
        have hrec : coldRec s j = (j, ej.key, ej.value) := by
          unfold coldRec
          rw [hej]
        rw [hmap, hrec, List.append_assoc, List.singleton_append]
      · intro j' hj'
        rcases List.mem_cons.mp hj' with rfl | hj'
        · apply pruneFrom_slookup_none
          rw [hslots']
          exact slookup_srem_self _ _
        · exact ih3 j' (hcold' ▸ hj')
      · intro i e hs h2
        have hij : i ≠ j := by
          intro h
          rw [h, hej] at hs
          cases hs
          omega
        refine ih4 i e ?_ h2
        rw [hslots', slookup_srem_ne hij]
        exact hs

/-! ### C6: Prune removes exactly the evictable entries -/

/-- C6: `Prune` destroys every currently-evictable entry (in cache with no
outstanding handle): afterwards its slot is gone and `Lookup` of its key
fails; entries held by callers (two or more references) are untouched. -/
theorem C6_prune_evictable (s : CacheState) (hInv : Inv s) :
    (∀ i e, slookup s.slots i = some e → e.inCache = true → e.refs = 1 →
        slookup (prune s).slots i = none ∧ (lookup (prune s) e.key).1 = none)
    ∧ (∀ i e, slookup s.slots i = some e → 2 ≤ e.refs →
        slookup (prune s).slots i = some e) := by
  rcases pruneFrom_spec s.cold.length s hInv (le_refl _) with ⟨_, _, h3, h4⟩
  constructor
  · intro i e hs hin hr1
    have hcold : i ∈ s.cold := hInv.coldComplete (i, e) (slookup_mem hs) hin hr1
    have hnone : slookup (prune s).slots i = none := h3 i hcold
    refine ⟨hnone, ?_⟩
    have hil : ilook (prune s).slots e.key = none := by
      apply ilook_eq_none_of_keys
      intro p hp hpin hpk
      have hp' : p ∈ s.slots := pruneFrom_inCache_embed _ s p hp hpin
      have hpi : p.1 = i :=
        hInv.keyUnique p hp' (i, e) (slookup_mem hs) hpin hin hpk
      rcases slookup_isSome_of_mem hp with ⟨e', he'⟩
      rw [hpi, hnone] at he'
      cases he'
    unfold lookup
    rw [hil]
  · exact h4

/-- Witness for C6: a cache with one evictable and one pinned entry. -/
theorem C6_witness :
    Inv (insert (release (insert (initC 100) 1 2 3).2
          (insert (initC 100) 1 2 3).1) 4 5 6).2
    ∧ ((∀ i e, slookup (insert (release (insert (initC 100) 1 2 3).2
            (insert (initC 100) 1 2 3).1) 4 5 6).2.slots i = some e →
          e.inCache = true → e.refs = 1 →
          slookup (prune (insert (release (insert (initC 100) 1 2 3).2
            (insert (initC 100) 1 2 3).1) 4 5 6).2).slots i = none
          ∧ (lookup (prune (insert (release (insert (initC 100) 1 2 3).2
            (insert (initC 100) 1 2 3).1) 4 5 6).2) e.key).1 = none)
       ∧ (∀ i e, slookup (insert (release (insert (initC 100) 1 2 3).2
            (insert (initC 100) 1 2 3).1) 4 5 6).2.slots i = some e →
          2 ≤ e.refs →
          slookup (prune (insert (release (insert (initC 100) 1 2 3).2
            (insert (initC 100) 1 2 3).1) 4 5 6).2).slots i = some e)) :=
  ⟨by decide, C6_prune_evictable _ (by decide)⟩

/-! ### C2: Insert never fails; oversized entries and their eviction -/

/-- C2 counterexample: with capacity 10, insert an entry of charge 20 and
release its handle, making it evictable.  The entry is not evicted at that
point — its key still resolves and its deleter has not run — refuting
"evicted as soon as it becomes evictable": eviction happens only at the next
eviction pass (a capacity-pressure insert or a prune). -/
theorem C2_counterexample :
    (lookup (release (insert (initC 10) 0 42 20).2
        (insert (initC 10) 0 42 20).1) 0).1.isSome = true
    ∧ (release (insert (initC 10) 0 42 20).2
        (insert (initC 10) 0 42 20).1).deleted = []
    ∧ (initC 10).capacity < 20 := by
  decide

/-- Characterisation of `Release` demoting a hot entry to the cold list. -/
theorem release_demote {s : CacheState} {i : Nat} {e : Entry}
    (hs : slookup s.slots i = some e) (h2 : e.refs = 2) (hin : e.inCache = true) :
    release s i =
      { s with slots := supd s.slots i { e with refs := 1 },
               cold := s.cold ++ [i] } := by
  unfold release
  rw [hs]
  dsimp only
  rw [if_neg (by omega), if_pos ⟨h2, hin⟩]

/-- C2 (amended): `Insert` never reports failure — it always stores the entry
and returns a valid handle referencing it, even when the charge exceeds the
whole capacity; such an oversized entry survives while its handle is
outstanding and, once the handle is released (making it evictable), it is
removed by the next eviction pass, e.g. `Prune`, which also invokes its
deleter. -/
theorem C2_insert_always_succeeds (s : CacheState) (k v c : Nat) (hInv : Inv s)
    (hover : s.capacity < c) :
    slookup (insert s k v c).2.slots (insert s k v c).1 = some ⟨k, v, c, 2, true⟩
    ∧ slookup (prune (release (insert s k v c).2 (insert s k v c).1)).slots
        (insert s k v c).1 = none
    ∧ ((insert s k v c).1, k, v) ∈
        (prune (release (insert s k v c).2 (insert s k v c).1)).deleted := by
  rcases insert_spec s k v c hInv with ⟨hsl, _⟩
  have hInvS : Inv (insert s k v c).2 := inv_insert s k v c hInv
  have hrel := release_demote hsl rfl rfl
  have hInvR : Inv (release (insert s k v c).2 (insert s k v c).1) :=
    inv_release _ _ hInvS
  have hcoldR : (insert s k v c).1 ∈
      (release (insert s k v c).2 (insert s k v c).1).cold := by
    rw [hrel]
    exact List.mem_append.mpr (Or.inr (List.mem_singleton.mpr rfl))
  have hslR : slookup (release (insert s k v c).2 (insert s k v c).1).slots
      (insert s k v c).1 = some ⟨k, v, c, 1, true⟩ := by
    rw [hrel]
    exact slookup_supd_self hsl _
  rcases pruneFrom_spec (release (insert s k v c).2 (insert s k v c).1).cold.length
      _ hInvR (le_refl _) with ⟨_, hdel, h3, _⟩
  refine ⟨hsl, h3 _ hcoldR, ?_⟩
  show ((insert s k v c).1, k, v) ∈
    (pruneFrom (release (insert s k v c).2 (insert s k v c).1)
      (release (insert s k v c).2 (insert s k v c).1).cold.length).deleted
  rw [hdel]
  refine List.mem_append.mpr (Or.inr ?_)
  have : coldRec (release (insert s k v c).2 (insert s k v c).1)
      (insert s k v c).1 = ((insert s k v c).1, k, v) := by
    unfold coldRec
    rw [hslR]
  exact this ▸ List.mem_map_of_mem _ hcoldR

/-- Witness for C2 (amended) at a concrete cache. -/
theorem C2_witness :
    Inv (initC 10) ∧ (initC 10).capacity < 20
    ∧ (slookup (insert (initC 10) 0 42 20).2.slots (insert (initC 10) 0 42 20).1
          = some ⟨0, 42, 20, 2, true⟩
       ∧ slookup (prune (release (insert (initC 10) 0 42 20).2
            (insert (initC 10) 0 42 20).1)).slots (insert (initC 10) 0 42 20).1 = none
       ∧ ((insert (initC 10) 0 42 20).1, 0, 42) ∈
           (prune (release (insert (initC 10) 0 42 20).2
             (insert (initC 10) 0 42 20).1)).deleted) :=
  ⟨by decide, by decide,
    C2_insert_always_succeeds (initC 10) 0 42 20 (by decide) (by decide)⟩

/-! ### C10: cache destruction invokes every remaining deleter once -/

theorem count_coldRec_list (s : CacheState) :
    ∀ l : List Nat, l.Nodup → ∀ {i : Nat} {e : Entry},
      i ∈ l → slookup s.slots i = some e →
      (l.map (coldRec s)).count (i, e.key, e.value) = 1 := by
  intro l
  induction l with
  | nil => intro _ i e hi _; simp at hi
  | cons j t ih =>
    intro hn i e hi he
    rcases List.nodup_cons.mp hn with ⟨hjt, hnt⟩
    rw [List.map_cons]
    rcases List.mem_cons.mp hi with rfl | hi
    · have hcr : coldRec s i = (i, e.key, e.value) := by
        unfold coldRec
        rw [he]
      rw [hcr, List.count_cons_self]
      have : (i, e.key, e.value) ∉ t.map (coldRec s) := by
        intro hmem
        rcases List.mem_map.mp hmem with ⟨x, hx, hcx⟩
        have : x = i := by
          have := coldRec_fst s x
          rw [hcx] at this
          exact this.symm
        exact hjt (this ▸ hx)
      rw [List.count_eq_zero.mpr this]
    · have hne : coldRec s j ≠ (i, e.key, e.value) := by
        intro hcx
        have := coldRec_fst s j
        rw [hcx] at this
        exact hjt (this ▸ hi)
      rw [List.count_cons_of_ne (fun h => hne h.symm), ih hnt hi he]

/-- C10: destroying the cache invokes the deleter of every entry still in the
cache exactly once, with that entry's key and value, and removes the entry —
under the destructor's contract that every handle has been released (each
in-cache entry holds only the cache's own reference). -/
theorem C10_destructor (s : CacheState) (hInv : Inv s)
    (hrel : ∀ p ∈ s.slots, p.2.inCache = true → p.2.refs = 1) :
    ∀ i e, slookup s.slots i = some e → e.inCache = true →
      (destroyCache s).deleted.count (i, e.key, e.value) = 1
      ∧ slookup (destroyCache s).slots i = none := by
  intro i e hs hin
  have hr1 : e.refs = 1 := hrel (i, e) (slookup_mem hs) hin
  have hcold : i ∈ s.cold := hInv.coldComplete (i, e) (slookup_mem hs) hin hr1
  rcases pruneFrom_spec s.cold.length s hInv (le_refl _) with ⟨_, h2, h3, _⟩
  constructor
  · show (pruneFrom s s.cold.length).deleted.count (i, e.key, e.value) = 1
    rw [h2, List.count_append]
    have h0 : s.deleted.count (i, e.key, e.value) = 0 := by
      rw [List.count_eq_zero]
      intro hmem
      have := (hInv.delFresh _ hmem).2
      rw [hs] at this
      cases this
    rw [h0, count_coldRec_list s s.cold hInv.coldNodup hcold hs]
  · exact h3 i hcold

/-- Witness for C10: one inserted-and-released entry is deleted exactly once
by destruction. -/
theorem C10_witness :
    Inv (release (insert (initC 10) 1 2 3).2 (insert (initC 10) 1 2 3).1)
    ∧ (∀ p ∈ (release (insert (initC 10) 1 2 3).2
          (insert (initC 10) 1 2 3).1).slots,
        p.2.inCache = true → p.2.refs = 1)
    ∧ ((destroyCache (release (insert (initC 10) 1 2 3).2
          (insert (initC 10) 1 2 3).1)).deleted.count (0, 1, 2) = 1
       ∧ slookup (destroyCache (release (insert (initC 10) 1 2 3).2
          (insert (initC 10) 1 2 3).1)).slots 0 = none) :=
  ⟨by decide, by decide,
    C10_destructor _ (by decide) (by decide) 0 ⟨1, 2, 3, 1, true⟩
      (by decide) (by decide)⟩

/-! ### C3: erase defers the deleter; the deleter runs exactly once -/

/-- How many deleter records name a given entry id. -/
def countDel (s : CacheState) (i : Nat) : Nat :=
  (s.deleted.map (·.1)).count i

/-- The life of an entry after it left the index: either it is still held
(present, out of cache, deleter not yet invoked) or it has been destroyed
(absent, deleter invoked exactly once with its key and value). -/
def Limbo (s : CacheState) (i k v : Nat) : Prop :=
  i < s.nextId ∧
  ((∃ e, slookup s.slots i = some e ∧ e.inCache = false ∧ e.key = k
      ∧ e.value = v ∧ countDel s i = 0)
   ∨ (slookup s.slots i = none ∧ countDel s i = 1 ∧ (i, k, v) ∈ s.deleted))

theorem countDel_append_ne (s : CacheState) {i j : Nat} (r : Nat × Nat)
    (hij : j ≠ i) :
    ((s.deleted ++ [(j, r)]).map (·.1)).count i = countDel s i := by
  unfold countDel
  rw [List.map_append, List.count_append]
  have hji : i ≠ j := fun h => hij h.symm
  simp [hji]

theorem limbo_finishErase (s : CacheState) (j i k v : Nat) (hInv : Inv s)
    (hL : Limbo s i k v) : Limbo (finishErase s j) i k v := by
  rcases hL with ⟨hlt, hcase⟩
  refine ⟨by rw [finishErase_nextId]; exact hlt, ?_⟩
  rcases hj : slookup s.slots j with _ | ej
  · rw [finishErase_none hj]; exact hcase
  · rcases hje : ej.inCache with _ | _
    · rw [finishErase_notInCache hj hje]; exact hcase
    · have hij : j ≠ i := by
        intro h
        rcases hcase with ⟨e, he, hni, _⟩ | ⟨he, _⟩
        · rw [h, he] at hj
          cases hj
          rw [hje] at hni
          cases hni
        · rw [h, he] at hj
          cases hj
      by_cases hr : ej.refs ≤ 1
      · rw [finishErase_destroy hj hje hr]
        rcases hcase with ⟨e, he, hni, hk, hv, hcd⟩ | ⟨he, hcd, hmem⟩
        · refine Or.inl ⟨e, ?_, hni, hk, hv, ?_⟩
          · show slookup (srem s.slots j) i = some e
            rw [slookup_srem_ne (Ne.symm hij)]
            exact he
          · show ((s.deleted ++ [(j, ej.key, ej.value)]).map (·.1)).count i = 0
            rw [countDel_append_ne s _ hij]
            exact hcd
        · refine Or.inr ⟨?_, ?_, ?_⟩
          · show slookup (srem s.slots j) i = none
            rw [slookup_srem_ne (Ne.symm hij)]
            exact he
          · show ((s.deleted ++ [(j, ej.key, ej.value)]).map (·.1)).count i = 1
            rw [countDel_append_ne s _ hij]
            exact hcd
          · exact List.mem_append.mpr (Or.inl hmem)
      · rw [finishErase_detach hj hje (by omega)]
        rcases hcase with ⟨e, he, hni, hk, hv, hcd⟩ | ⟨he, hcd, hmem⟩
        · refine Or.inl ⟨e, ?_, hni, hk, hv, hcd⟩
          show slookup (supd s.slots j _) i = some e
          rw [slookup_supd_ne _ (Ne.symm hij)]
          exact he
        · refine Or.inr ⟨?_, hcd, hmem⟩
          show slookup (supd s.slots j _) i = none
          exact slookup_supd_none _ he

theorem limbo_evictFrom (fuel : Nat) :
    ∀ s : CacheState, ∀ {i k v : Nat}, Inv s → Limbo s i k v →
      Limbo (evictFrom s fuel) i k v := by
  induction fuel with
  | zero => intro s i k v _ hL; exact hL
  | succ fuel ih =>
    intro s i k v hInv hL
    rcases hc : s.cold with _ | ⟨j, t⟩
    · rw [evictFrom_succ_nil s fuel hc]; exact hL
    · rw [evictFrom_succ_cons s fuel j t hc]
      by_cases hcap : s.capacity < s.usage
      · rw [if_pos hcap]
        exact ih _ (inv_finishErase s j hInv) (limbo_finishErase s j i k v hInv hL)
      · rw [if_neg hcap]; exact hL

theorem limbo_pruneFrom (fuel : Nat) :
    ∀ s : CacheState, ∀ {i k v : Nat}, Inv s → Limbo s i k v →
      Limbo (pruneFrom s fuel) i k v := by
  induction fuel with
  | zero => intro s i k v _ hL; exact hL
  | succ fuel ih =>
    intro s i k v hInv hL
    rcases hc : s.cold with _ | ⟨j, t⟩
    · rw [pruneFrom_succ_nil s fuel hc]; exact hL
    · rw [pruneFrom_succ_cons s fuel j t hc]
      exact ih _ (inv_finishErase s j hInv) (limbo_finishErase s j i k v hInv hL)

/-- An id in limbo is invisible to the index (its entry is out of cache). -/
theorem limbo_ilook_ne (s : CacheState) {i k v : Nat} (hInv : Inv s)
    (hL : Limbo s i k v) {k' j : Nat} (hj : ilook s.slots k' = some j) :
    j ≠ i := by
  intro h
  rcases ilook_some_slookup hInv.idsNodup hj with ⟨ej, hej, hjin, _⟩
  rcases hL.2 with ⟨e, he, hni, _⟩ | ⟨he, _⟩
  · rw [h, he] at hej
    cases hej
    rw [hjin] at hni
    cases hni
  · rw [h, he] at hej
    cases hej

theorem limbo_applyOp (s : CacheState) (op : Op) {i k v : Nat} (hInv : Inv s)
    (hL : Limbo s i k v) : Limbo (applyOp s op) i k v := by
  cases op with
  | ins k' v' c' =>
    show Limbo (insert s k' v' c').2 i k v
    unfold insert
    dsimp only
    have hL1 : Limbo (insertDisplace s k') i k v := by
      unfold insertDisplace
      rcases hl : ilook s.slots k' with _ | j
      · exact hL
      · exact limbo_finishErase s j i k v hInv hL
    have hInv1 : Inv (insertDisplace s k') := inv_insertDisplace s k' hInv
    have hmid : Limbo { insertDisplace s k' with
        slots := (insertDisplace s k').slots ++
          [((insertDisplace s k').nextId, ⟨k', v', c', 2, true⟩)],
        nextId := (insertDisplace s k').nextId + 1,
        usage := (insertDisplace s k').usage + c' } i k v := by
      rcases hL1 with ⟨hlt, hcase⟩
      refine ⟨by show i < (insertDisplace s k').nextId + 1; omega, ?_⟩
      rcases hcase with ⟨e, he, hni, hk, hv, hcd⟩ | ⟨he, hcd, hmem⟩
      · exact Or.inl ⟨e, slookup_append_of_some he, hni, hk, hv, hcd⟩
      · refine Or.inr ⟨?_, hcd, hmem⟩
        rw [slookup_append_of_none he, slookup_singleton, if_neg (by omega)]
    exact limbo_evictFrom _ _
      (inv_insertMid (insertDisplace s k') k' v' c' hInv1
        (displace_key_clear s k' hInv)) hmid
  | look k' =>
    show Limbo (lookup s k').2 i k v
    unfold lookup
    rcases hl : ilook s.slots k' with _ | j
    · exact hL
    · dsimp only
      rcases hj : slookup s.slots j with _ | ej
      · exact hL
      · dsimp only
        have hij : j ≠ i := limbo_ilook_ne s hInv hL hl
        rcases hL with ⟨hlt, hcase⟩
        refine ⟨hlt, ?_⟩
        rcases hcase with ⟨e, he, hni, hk, hv, hcd⟩ | ⟨he, hcd, hmem⟩
        · refine Or.inl ⟨e, ?_, hni, hk, hv, hcd⟩
          show slookup (supd s.slots j _) i = some e
          rw [slookup_supd_ne _ (Ne.symm hij)]
          exact he
        · refine Or.inr ⟨?_, hcd, hmem⟩
          exact slookup_supd_none _ he
  | rel k' j =>
    show Limbo (release s j) i k v
    unfold release
    rcases hj : slookup s.slots j with _ | ej
    · exact hL
    · dsimp only
      rcases hL with ⟨hlt, hcase⟩
      by_cases hr : ej.refs ≤ 1
      · rw [if_pos hr]
        rcases hcase with ⟨e, he, hni, hk, hv, hcd⟩ | ⟨he, hcd, hmem⟩
        · by_cases hij : j = i
          · have hee : ej = e := by
              rw [hij, he] at hj
              exact (Option.some_inj.mp hj).symm
            rw [hij, hee]
            refine ⟨hlt, Or.inr ⟨slookup_srem_self _ _, ?_, ?_⟩⟩
            · show ((s.deleted ++ [(i, e.key, e.value)]).map (·.1)).count i = 1
              unfold countDel at hcd
              rw [List.map_append, List.count_append, hcd]
              simp
            · rw [hk, hv]
              exact List.mem_append.mpr (Or.inr (List.mem_singleton.mpr rfl))
          · refine ⟨hlt, Or.inl ⟨e, ?_, hni, hk, hv, ?_⟩⟩
            · show slookup (srem s.slots j) i = some e
              rw [slookup_srem_ne (Ne.symm hij)]
              exact he
            · show ((s.deleted ++ [(j, ej.key, ej.value)]).map (·.1)).count i = 0
              rw [countDel_append_ne s _ hij]
              exact hcd
        · have hij : j ≠ i := by
            intro h
            rw [h, he] at hj
            cases hj
          refine ⟨hlt, Or.inr ⟨?_, ?_, List.mem_append.mpr (Or.inl hmem)⟩⟩
          · show slookup (srem s.slots j) i = none
            rw [slookup_srem_ne (Ne.symm hij)]
            exact he
          · show ((s.deleted ++ [(j, ej.key, ej.value)]).map (·.1)).count i = 1
            rw [countDel_append_ne s _ hij]
            exact hcd
      · rw [if_neg hr]
        by_cases hdem : ej.refs = 2 ∧ ej.inCache = true
        · rw [if_pos hdem]
          have hij : j ≠ i := by
            intro h
            rcases hcase with ⟨e, he, hni, _⟩ | ⟨he, _⟩
            · rw [h, he] at hj
              cases hj
              rw [hdem.2] at hni
              cases hni
            · rw [h, he] at hj
              cases hj
          refine ⟨hlt, ?_⟩
          rcases hcase with ⟨e, he, hni, hk, hv, hcd⟩ | ⟨he, hcd, hmem⟩
          · refine Or.inl ⟨e, ?_, hni, hk, hv, hcd⟩
            show slookup (supd s.slots j _) i = some e
            rw [slookup_supd_ne _ (Ne.symm hij)]
            exact he
          · exact Or.inr ⟨slookup_supd_none _ he, hcd, hmem⟩
        · rw [if_neg hdem]
          refine ⟨hlt, ?_⟩
          rcases hcase with ⟨e, he, hni, hk, hv, hcd⟩ | ⟨he, hcd, hmem⟩
          · by_cases hij : j = i
            · have hee : ej = e := by
                rw [hij, he] at hj
                exact (Option.some_inj.mp hj).symm
              rw [hij, hee]
              refine Or.inl ⟨{ e with refs := e.refs - 1 }, ?_, hni, hk, hv, hcd⟩
              exact slookup_supd_self he _
            · refine Or.inl ⟨e, ?_, hni, hk, hv, hcd⟩
              show slookup (supd s.slots j _) i = some e
              rw [slookup_supd_ne _ (Ne.symm hij)]
              exact he
          · exact Or.inr ⟨slookup_supd_none _ he, hcd, hmem⟩
  | ers k' =>
    show Limbo (erase s k') i k v
    unfold erase
    rcases hl : ilook s.slots k' with _ | j
    · exact hL
    · exact limbo_finishErase s j i k v hInv hL
  | prune =>
    exact limbo_pruneFrom _ s hInv hL
  | newid =>
    rcases hL with ⟨hlt, hcase⟩
    exact ⟨hlt, hcase⟩

theorem limbo_run (ops : List Op) :
    ∀ s : CacheState, ∀ {i k v : Nat}, Inv s → Limbo s i k v →
      Limbo (run s ops) i k v := by
  induction ops with
  | nil => intro s i k v _ hL; exact hL
  | cons op ops ih =>
    intro s i k v hInv hL
    exact ih _ (inv_applyOp s op hInv) (limbo_applyOp s op hInv hL)

/-- The index resolves the key of an in-cache entry to exactly that entry. -/
theorem ilook_self (s : CacheState) (hInv : Inv s) {i : Nat} {e : Entry}
    (hs : slookup s.slots i = some e) (hin : e.inCache = true) :
    ilook s.slots e.key = some i := by
  rcases ilook_isSome_of_mem hin rfl (slookup_mem hs) with ⟨j, hj⟩
  rcases ilook_some_mem hj with ⟨ej, hmem, hjin, hjk⟩
  have hji : j = i := hInv.keyUnique (j, ej) hmem (i, e) (slookup_mem hs) hjin hin hjk
  rw [hj, hji]

/-- C3: erasing the key of an entry that is still held through an outstanding
handle does not invoke its deleter — the entry survives, merely leaving the
cache — and over any continuation of the run the deleter for that entry runs
at most once, and exactly once (with the entry's key and value) by the time
the entry is gone. -/
theorem C3_erase_defers_deleter (s : CacheState) (i : Nat) (e : Entry)
    (hInv : Inv s) (hs : slookup s.slots i = some e) (hin : e.inCache = true)
    (hout : 2 ≤ e.refs) :
    (erase s e.key).deleted = s.deleted
    ∧ slookup (erase s e.key).slots i
        = some ⟨e.key, e.value, e.charge, e.refs - 1, false⟩
    ∧ ∀ ops : List Op,
        countDel (run (erase s e.key) ops) i ≤ 1
        ∧ (slookup (run (erase s e.key) ops).slots i = none →
            countDel (run (erase s e.key) ops) i = 1
            ∧ (i, e.key, e.value) ∈ (run (erase s e.key) ops).deleted) := by
  have herase : erase s e.key = finishErase s i := by
    unfold erase
    rw [ilook_self s hInv hs hin]
  have hdet := finishErase_detach hs hin hout
  have hcd0 : countDel s i = 0 := by
    unfold countDel
    rw [List.count_eq_zero]
    intro hmem
    rcases List.mem_map.mp hmem with ⟨d, hd, hd1⟩
    have := (hInv.delFresh d hd).2
    rw [hd1, hs] at this
    cases this
  have hInv' : Inv (erase s e.key) := inv_erase s e.key hInv
  have hL : Limbo (erase s e.key) i e.key e.value := by
    rw [herase, hdet]
    refine ⟨by show i < s.nextId; exact hInv.slotFresh _ (slookup_mem hs), ?_⟩
    refine Or.inl ⟨⟨e.key, e.value, e.charge, e.refs - 1, false⟩, ?_, rfl, rfl, rfl, ?_⟩
    · exact slookup_supd_self hs _
    · exact hcd0
  refine ⟨?_, ?_, ?_⟩
  · rw [herase, hdet]
  · rw [herase, hdet]
    exact slookup_supd_self hs _
  · intro ops
    have hLrun := limbo_run ops _ hInv' hL
    rcases hLrun with ⟨_, hcase⟩
    constructor
    · rcases hcase with ⟨_, _, _, _, _, hcd⟩ | ⟨_, hcd, _⟩ <;> omega
    · intro hnone
      rcases hcase with ⟨e', he', _⟩ | ⟨_, hcd, hmem⟩
      · rw [hnone] at he'
        cases he'
      · exact ⟨hcd, hmem⟩

/-- Witness for C3: erase a freshly inserted, still-held entry. -/
theorem C3_witness :
    Inv (insert (initC 10) 1 2 3).2
    ∧ ((erase (insert (initC 10) 1 2 3).2 1).deleted
         = (insert (initC 10) 1 2 3).2.deleted
       ∧ slookup (erase (insert (initC 10) 1 2 3).2 1).slots
           (insert (initC 10) 1 2 3).1 = some ⟨1, 2, 3, 1, false⟩
       ∧ ∀ ops : List Op,
           countDel (run (erase (insert (initC 10) 1 2 3).2 1) ops)
             (insert (initC 10) 1 2 3).1 ≤ 1
           ∧ (slookup (run (erase (insert (initC 10) 1 2 3).2 1) ops).slots
                (insert (initC 10) 1 2 3).1 = none →
              countDel (run (erase (insert (initC 10) 1 2 3).2 1) ops)
                (insert (initC 10) 1 2 3).1 = 1
              ∧ ((insert (initC 10) 1 2 3).1, 1, 2) ∈
                  (run (erase (insert (initC 10) 1 2 3).2 1) ops).deleted)) :=
  ⟨by decide,
    C3_erase_defers_deleter (insert (initC 10) 1 2 3).2 (insert (initC 10) 1 2 3).1
      ⟨1, 2, 3, 2, true⟩ (by decide) (by decide) (by decide) (by decide)⟩

/-! ### C5: entries with an outstanding handle are never evicted -/

/-- The operations that are allowed to end an entry's pinned life: releasing
its own handle, erasing its key, or re-inserting its key (which displaces
it).  Everything else must leave a pinned entry in place. -/
def touches (i k : Nat) : Op → Bool
  | .rel _ j => j == i
  | .ers k' => k' == k
  | .ins k' _ _ => k' == k
  | _ => false

/-- Entry `i` is pinned: in cache, at least one outstanding handle, with the
given key, value and charge. -/
def PinnedAt (s : CacheState) (i k v c : Nat) : Prop :=
  ∃ e, slookup s.slots i = some e ∧ e.inCache = true ∧ 2 ≤ e.refs
    ∧ e.key = k ∧ e.value = v ∧ e.charge = c

theorem pinned_not_cold {s : CacheState} {i k v c : Nat} (hInv : Inv s)
    (hp : PinnedAt s i k v c) : i ∉ s.cold := by
  rcases hp with ⟨e, he, _, hr, _⟩
  exact hInv.not_cold_of_refs he (by omega)

theorem pinned_finishErase {s : CacheState} {i k v c : Nat} (j : Nat)
    (hij : j ≠ i) (hp : PinnedAt s i k v c) :
    PinnedAt (finishErase s j) i k v c := by
  rcases hp with ⟨e, he, h1, h2, h3, h4, h5⟩
  exact ⟨e, by rw [finishErase_slookup_ne s (Ne.symm hij)]; exact he, h1, h2, h3, h4, h5⟩

theorem pinned_evictFrom (fuel : Nat) :
    ∀ s : CacheState, ∀ {i k v c : Nat}, Inv s → PinnedAt s i k v c →
      PinnedAt (evictFrom s fuel) i k v c := by
  induction fuel with
  | zero => intro s i k v c _ hp; exact hp
  | succ fuel ih =>
    intro s i k v c hInv hp
    rcases hc : s.cold with _ | ⟨j, t⟩
    · rw [evictFrom_succ_nil s fuel hc]; exact hp
    · rw [evictFrom_succ_cons s fuel j t hc]
      by_cases hcap : s.capacity < s.usage
      · rw [if_pos hcap]
        have hij : j ≠ i := by
          intro h
          exact pinned_not_cold hInv hp (hc ▸ (h ▸ List.mem_cons_self j t))
        exact ih _ (inv_finishErase s j hInv) (pinned_finishErase j hij hp)
      · rw [if_neg hcap]; exact hp

theorem pinned_pruneFrom (fuel : Nat) :
    ∀ s : CacheState, ∀ {i k v c : Nat}, Inv s → PinnedAt s i k v c →
      PinnedAt (pruneFrom s fuel) i k v c := by
  induction fuel with
  | zero => intro s i k v c _ hp; exact hp
  | succ fuel ih =>
    intro s i k v c hInv hp
    rcases hc : s.cold with _ | ⟨j, t⟩
    · rw [pruneFrom_succ_nil s fuel hc]; exact hp
    · rw [pruneFrom_succ_cons s fuel j t hc]
      have hij : j ≠ i := by
        intro h
        exact pinned_not_cold hInv hp (hc ▸ (h ▸ List.mem_cons_self j t))
      exact ih _ (inv_finishErase s j hInv) (pinned_finishErase j hij hp)

/-- `Release` of a different handle leaves a slot unchanged. -/
theorem release_slookup_ne (s : CacheState) {i j : Nat} (hij : i ≠ j) :
    slookup (release s j).slots i = slookup s.slots i := by
  unfold release
  rcases hj : slookup s.slots j with _ | ej
  · rfl
  · dsimp only
    by_cases hr : ej.refs ≤ 1
    · rw [if_pos hr]
      exact slookup_srem_ne hij
    · rw [if_neg hr]
      by_cases hdem : ej.refs = 2 ∧ ej.inCache = true
      · rw [if_pos hdem]
        exact slookup_supd_ne _ hij
      · rw [if_neg hdem]
        exact slookup_supd_ne _ hij

theorem pinned_applyOp (s : CacheState) (op : Op) {i k v c : Nat}
    (hInv : Inv s) (hp : PinnedAt s i k v c) (hop : touches i k op = false) :
    PinnedAt (applyOp s op) i k v c := by
  cases op with
  | ins k' v' c' =>
    have hk' : k' ≠ k := by simpa [touches] using hop
    show PinnedAt (insert s k' v' c').2 i k v c
    unfold insert
    dsimp only
    have hp1 : PinnedAt (insertDisplace s k') i k v c := by
      unfold insertDisplace
      rcases hl : ilook s.slots k' with _ | j
      · exact hp
      · refine pinned_finishErase j ?_ hp
        intro h
        rcases ilook_some_slookup hInv.idsNodup hl with ⟨ej, hej, _, hejk⟩
        rcases hp with ⟨e, he, _, _, hek, _⟩
        rw [h, he] at hej
        cases hej
        exact hk' (hejk ▸ hek)
    have hInv1 : Inv (insertDisplace s k') := inv_insertDisplace s k' hInv
    have hmid : PinnedAt { insertDisplace s k' with
        slots := (insertDisplace s k').slots ++
          [((insertDisplace s k').nextId, ⟨k', v', c', 2, true⟩)],
        nextId := (insertDisplace s k').nextId + 1,
        usage := (insertDisplace s k').usage + c' } i k v c := by
      rcases hp1 with ⟨e, he, h1, h2, h3, h4, h5⟩
      exact ⟨e, slookup_append_of_some he, h1, h2, h3, h4, h5⟩
    exact pinned_evictFrom _ _
      (inv_insertMid (insertDisplace s k') k' v' c' hInv1
        (displace_key_clear s k' hInv)) hmid
  | look k' =>
    show PinnedAt (lookup s k').2 i k v c
    unfold lookup
    rcases hl : ilook s.slots k' with _ | j
    · exact hp
    · dsimp only
      rcases hj : slookup s.slots j with _ | ej
      · exact hp
      · dsimp only
        rcases hp with ⟨e, he, h1, h2, h3, h4, h5⟩
        by_cases hij : j = i
        · have hee : ej = e := by
            rw [hij, he] at hj
            exact (Option.some_inj.mp hj).symm
          rw [hij, hee]
          refine ⟨{ e with refs := e.refs + 1 }, slookup_supd_self he _, h1, ?_, h3, h4, h5⟩
          show 2 ≤ e.refs + 1
          omega
        · refine ⟨e, ?_, h1, h2, h3, h4, h5⟩
          show slookup (supd s.slots j _) i = some e
          rw [slookup_supd_ne _ (Ne.symm hij)]
          exact he
  | rel k' j =>
    have hj : j ≠ i := by simpa [touches] using hop
    show PinnedAt (release s j) i k v c
    rcases hp with ⟨e, he, h1, h2, h3, h4, h5⟩
    exact ⟨e, by rw [release_slookup_ne s (Ne.symm hj)]; exact he, h1, h2, h3, h4, h5⟩
  | ers k' =>
    have hk' : k' ≠ k := by simpa [touches] using hop
    show PinnedAt (erase s k') i k v c
    unfold erase
    rcases hl : ilook s.slots k' with _ | j
    · exact hp
    · refine pinned_finishErase j ?_ hp
      intro h
      rcases ilook_some_slookup hInv.idsNodup hl with ⟨ej, hej, _, hejk⟩
      rcases hp with ⟨e, he, _, _, hek, _⟩
      rw [h, he] at hej
      cases hej
      exact hk' (hejk ▸ hek)
  | prune =>
    exact pinned_pruneFrom _ s hInv hp
  | newid =>
    rcases hp with ⟨e, he, h1, h2, h3, h4, h5⟩
    exact ⟨e, he, h1, h2, h3, h4, h5⟩

theorem pinned_run (ops : List Op) :
    ∀ s : CacheState, ∀ {i k v c : Nat}, Inv s → PinnedAt s i k v c →
      (∀ op ∈ ops, touches i k op = false) →
      PinnedAt (run s ops) i k v c := by
  induction ops with
  | nil => intro s i k v c _ hp _; exact hp
  | cons op ops ih =>
    intro s i k v c hInv hp hops
    exact ih _ (inv_applyOp s op hInv)
      (pinned_applyOp s op hInv hp (hops op (List.mem_cons_self op ops)))
      (fun op' hop' => hops op' (List.mem_cons_of_mem _ hop'))

/-- C5: an entry holding at least one outstanding handle is never evicted —
not by capacity pressure of later inserts of other keys, not by `Prune`, and
not by any other operation that does not release its handle or erase or
re-insert its key.  It stays in the cache, keeps its key, value and charge,
and remains resolvable by `Lookup`. -/
theorem C5_pinned_immune (s : CacheState) (i : Nat) (e : Entry) (ops : List Op)
    (hInv : Inv s) (hs : slookup s.slots i = some e) (hin : e.inCache = true)
    (hout : 2 ≤ e.refs) (hops : ∀ op ∈ ops, touches i e.key op = false) :
    ∃ e', slookup (run s ops).slots i = some e'
      ∧ e'.inCache = true ∧ 2 ≤ e'.refs ∧ e'.key = e.key ∧ e'.value = e.value
      ∧ e'.charge = e.charge
      ∧ (lookup (run s ops) e.key).1 = some i := by
  have hp : PinnedAt s i e.key e.value e.charge :=
    ⟨e, hs, hin, hout, rfl, rfl, rfl⟩
  have hfinal := pinned_run ops s hInv hp hops
  have hInvF : Inv (run s ops) := inv_run s ops hInv
  rcases hfinal with ⟨e', he', h1, h2, h3, h4, h5⟩
  refine ⟨e', he', h1, h2, h3, h4, h5, ?_⟩
  have hil : ilook (run s ops).slots e.key = some i := by
    have h := ilook_self (run s ops) hInvF he' h1
    rw [h3] at h
    exact h
  unfold lookup
  rw [hil]
  dsimp only
  rw [he']

/-- Witness for C5: a pinned entry survives an oversized insert and a prune. -/
theorem C5_witness :
    Inv (insert (initC 100) 1 2 3).2
    ∧ slookup (insert (initC 100) 1 2 3).2.slots (insert (initC 100) 1 2 3).1
        = some ⟨1, 2, 3, 2, true⟩
    ∧ (∀ op ∈ [Op.ins 5 6 200, Op.prune],
        touches (insert (initC 100) 1 2 3).1 1 op = false)
    ∧ (∃ e', slookup (run (insert (initC 100) 1 2 3).2
          [Op.ins 5 6 200, Op.prune]).slots (insert (initC 100) 1 2 3).1 = some e'
        ∧ e'.inCache = true ∧ 2 ≤ e'.refs ∧ e'.key = 1 ∧ e'.value = 2
        ∧ e'.charge = 3
        ∧ (lookup (run (insert (initC 100) 1 2 3).2
            [Op.ins 5 6 200, Op.prune]) 1).1 = some (insert (initC 100) 1 2 3).1) :=
  ⟨by decide, by decide, by decide,
    C5_pinned_immune (insert (initC 100) 1 2 3).2 (insert (initC 100) 1 2 3).1
      ⟨1, 2, 3, 2, true⟩ [Op.ins 5 6 200, Op.prune]
      (by decide) (by decide) (by decide) (by decide) (by decide)⟩

/-! ### C4: LRU order under insert-and-release sequences

The cache behaviour on a sequence of inserts whose handles are released
immediately is captured by a simple queue model: the cold list is a queue of
entries, eviction pops from its front while over capacity, and each new entry
is appended at the back.  We first prove the simulation, then characterise
the queue model: the survivors are the longest suffix of the insert sequence
whose charges fit in the capacity. -/

/-- A queue-model entry: id, key, value and charge of one released insert. -/
structure QE where
  id : Nat
  key : Nat
  value : Nat
  charge : Nat
deriving DecidableEq

/-- The slot a released queue entry occupies (one reference, in cache). -/
def qslot (x : QE) : Nat × Entry :=
  (x.id, ⟨x.key, x.value, x.charge, 1, true⟩)

/-- The deleter record produced when a queue entry is evicted. -/
def qrec (x : QE) : Nat × Nat × Nat :=
  (x.id, x.key, x.value)

def sumCharge (q : List QE) : Nat :=
  (q.map (·.charge)).sum

/-- Queue-level eviction: pop from the front while the running usage exceeds
capacity.  Returns (survivors, evicted in order, final usage). -/
def evictQ (C : Nat) : List QE → Nat → List QE × List QE × Nat
  | [], u => ([], [], u)
  | x :: t, u =>
    if C < u then
      ((evictQ C t (u - x.charge)).1, x :: (evictQ C t (u - x.charge)).2.1,
       (evictQ C t (u - x.charge)).2.2)
    else (x :: t, [], u)

/-- One insert-and-release round in the queue model: evict under the new
usage, then append the new entry at the back.  Returns (queue, evicted). -/
def stepQ (C : Nat) (q : List QE) (x : QE) : List QE × List QE :=
  ((evictQ C q (sumCharge q + x.charge)).1 ++ [x],
   (evictQ C q (sumCharge q + x.charge)).2.1)

/-- Fold the queue model over an item list, accumulating deleter records and
the next fresh id.  Items are (key, value, charge) triples. -/
def runQAux (C : Nat) : List (Nat × Nat × Nat) → List QE →
    List (Nat × Nat × Nat) → Nat → List QE × List (Nat × Nat × Nat) × Nat
  | [], q, D, n => (q, D, n)
  | it :: rest, q, D, n =>
    runQAux C rest (stepQ C q ⟨n, it.1, it.2.1, it.2.2⟩).1
      (D ++ ((stepQ C q ⟨n, it.1, it.2.1, it.2.2⟩).2).map qrec) (n + 1)

/-- Tag an item list with consecutive ids starting at `n`. -/
def tagQ : Nat → List (Nat × Nat × Nat) → List QE
  | _, [] => []
  | n, it :: rest => ⟨n, it.1, it.2.1, it.2.2⟩ :: tagQ (n + 1) rest

def chargeSum (items : List (Nat × Nat × Nat)) : Nat :=
  (items.map (·.2.2)).sum

/-- The longest suffix of the items whose total charge fits in `C`. -/
def fitSuffix (C : Nat) : List (Nat × Nat × Nat) → List (Nat × Nat × Nat)
  | [] => []
  | it :: rest => if chargeSum (it :: rest) ≤ C then it :: rest else fitSuffix C rest

/-- The complementary evicted oldest-first part of the items. -/
def dropPart (C : Nat) : List (Nat × Nat × Nat) → List (Nat × Nat × Nat)
  | [] => []
  | it :: rest => if chargeSum (it :: rest) ≤ C then [] else it :: dropPart C rest

/-- `fitSuffix` on the queue side. -/
def maxFit (C : Nat) : List QE → List QE
  | [] => []
  | x :: t => if sumCharge (x :: t) ≤ C then x :: t else maxFit C t

/-- `dropPart` on the queue side. -/
def dropFit (C : Nat) : List QE → List QE
  | [] => []
  | x :: t => if sumCharge (x :: t) ≤ C then [] else x :: dropFit C t

/-- Insert an item and immediately release the returned handle. -/
def insRel (s : CacheState) (it : Nat × Nat × Nat) : CacheState :=
  release (insert s it.1 it.2.1 it.2.2).2 (insert s it.1 it.2.1 it.2.2).1

/-- Run a whole sequence of insert-and-release rounds. -/
def runIR (s : CacheState) (items : List (Nat × Nat × Nat)) : CacheState :=
  items.foldl insRel s

@[simp]
theorem sumCharge_nil : sumCharge [] = 0 := rfl

theorem sumCharge_cons (x : QE) (t : List QE) :
    sumCharge (x :: t) = x.charge + sumCharge t := by
  unfold sumCharge
  rw [List.map_cons, List.sum_cons]

theorem sumCharge_append (q r : List QE) :
    sumCharge (q ++ r) = sumCharge q + sumCharge r := by
  unfold sumCharge
  rw [List.map_append, List.sum_append]

theorem chargeSum_tagQ (items : List (Nat × Nat × Nat)) :
    ∀ n, sumCharge (tagQ n items) = chargeSum items := by
  induction items with
  | nil => intro n; rfl
  | cons it rest ih =>
    intro n
    show sumCharge (⟨n, it.1, it.2.1, it.2.2⟩ :: tagQ (n + 1) rest)
      = chargeSum (it :: rest)
    rw [sumCharge_cons, ih (n + 1)]
    show it.2.2 + chargeSum rest = chargeSum (it :: rest)
    unfold chargeSum
    rw [List.map_cons, List.sum_cons]

theorem tagQ_keys (items : List (Nat × Nat × Nat)) :
    ∀ n, (tagQ n items).map (·.key) = items.map (·.1) := by
  induction items with
  | nil => intro n; rfl
  | cons it rest ih =>
    intro n
    show QE.key ⟨n, it.1, it.2.1, it.2.2⟩ :: (tagQ (n + 1) rest).map (·.key)
      = it.1 :: rest.map (·.1)
    rw [ih (n + 1)]

theorem evictQ_rem_sublist (C : Nat) :
    ∀ (q : List QE) (u : Nat), List.Sublist (evictQ C q u).1 q := by
  intro q
  induction q with
  | nil => intro u; exact List.Sublist.refl _
  | cons x t ih =>
    intro u
    unfold evictQ
    by_cases hcap : C < u
    · rw [if_pos hcap]
      exact (ih (u - x.charge)).cons x
    · rw [if_neg hcap]

theorem evictQ_usage (C : Nat) :
    ∀ (q : List QE) (c : Nat),
      (evictQ C q (sumCharge q + c)).2.2
        = sumCharge (evictQ C q (sumCharge q + c)).1 + c := by
  intro q
  induction q with
  | nil => intro c; rfl
  | cons x t ih =>
    intro c
    unfold evictQ
    by_cases hcap : C < sumCharge (x :: t) + c
    · rw [if_pos hcap]
      have harg : sumCharge (x :: t) + c - x.charge = sumCharge t + c := by
        rw [sumCharge_cons]
        omega
      rw [harg]
      exact ih c
    · rw [if_neg hcap]

/-- The eviction loop of the cache simulates queue-level eviction: on a state
whose cold list is the queue (with one pinned hot entry appended to the
slots), it pops cold entries from the front exactly as `evictQ` does. -/
theorem evictFrom_sim (C ctr : Nat) (hot : Nat × Entry) :
    ∀ (q : List QE) (u n : Nat) (D : List (Nat × Nat × Nat)),
      (q.map (·.id)).Nodup → (∀ x ∈ q, x.id ≠ hot.1) →
      evictFrom ⟨C, n, q.map qslot ++ [hot], q.map (·.id), u, D, ctr⟩ q.length =
        ⟨C, n, ((evictQ C q u).1).map qslot ++ [hot], ((evictQ C q u).1).map (·.id),
         (evictQ C q u).2.2, D ++ ((evictQ C q u).2.1).map qrec, ctr⟩ := by
  intro q
  induction q with
  | nil =>
    intro u n D _ _
    show (⟨C, n, [] ++ [hot], [], u, D, ctr⟩ : CacheState) = _
    simp [evictQ]
  | cons x t ih =>
    intro u n D hnd hhot
    have hnd' : (t.map (·.id)).Nodup := by
      rw [List.map_cons, List.nodup_cons] at hnd
      exact hnd.2
    have hxid : x.id ∉ t.map (·.id) := by
      rw [List.map_cons, List.nodup_cons] at hnd
      exact hnd.1
    have hhot' : ∀ y ∈ t, y.id ≠ hot.1 :=
      fun y hy => hhot y (List.mem_cons_of_mem _ hy)
    have hxhot : x.id ≠ hot.1 := hhot x (List.mem_cons_self x t)
    set s : CacheState :=
      ⟨C, n, (x :: t).map qslot ++ [hot], (x :: t).map (·.id), u, D, ctr⟩ with hsdef
    have hc : s.cold = x.id :: t.map (·.id) := rfl
    rw [show (x :: t).length = t.length + 1 from rfl,
      evictFrom_succ_cons s t.length x.id (t.map (·.id)) hc]
    have hslookup : slookup s.slots x.id
        = some ⟨x.key, x.value, x.charge, 1, true⟩ := by
      show slookup (qslot x :: (t.map qslot ++ [hot])) x.id = _
      rw [slookup_cons]
      simp [qslot]
    by_cases hcap : C < u
    · rw [if_pos (show s.capacity < s.usage from hcap)]
      have hfe := finishErase_destroy hslookup rfl (le_refl 1)
      have hsrem : srem s.slots x.id = t.map qslot ++ [hot] := by
        show srem (qslot x :: (t.map qslot ++ [hot])) x.id = _
        rw [srem_cons, if_pos (show (qslot x).1 = x.id from rfl)]
        apply srem_eq_self
        intro p hp
        rcases List.mem_append.mp hp with hp | hp
        · rcases List.mem_map.mp hp with ⟨y, hy, rfl⟩
          show y.id ≠ x.id
          intro h
          exact hxid (h ▸ List.mem_map_of_mem (·.id) hy)
        · rcases List.mem_singleton.mp hp with rfl
          exact fun h => hxhot h.symm
      have hfilter : s.cold.filter (fun z => z != x.id) = t.map (·.id) := by
        rw [hc, List.filter_cons_of_neg (by simp)]
        apply List.filter_eq_self.mpr
        intro a ha
        simp only [bne_iff_ne, ne_eq, decide_eq_true_eq]
        exact fun h => hxid (h ▸ ha)
      rw [hfe]
      have hstate :
          ({ s with
             slots := srem s.slots x.id,
             cold := s.cold.filter (fun z => z != x.id),
             usage := s.usage - (⟨x.key, x.value, x.charge, 1, true⟩ : Entry).charge,
             deleted := s.deleted ++
               [(x.id, (⟨x.key, x.value, x.charge, 1, true⟩ : Entry).key,
                 (⟨x.key, x.value, x.charge, 1, true⟩ : Entry).value)] } : CacheState)
          = ⟨C, n, t.map qslot ++ [hot], t.map (·.id), u - x.charge,
             D ++ [qrec x], ctr⟩ := by
        rw [hsrem, hfilter]
        rfl
      have hevq : evictQ C (x :: t) u
          = if C < u then
              ((evictQ C t (u - x.charge)).1, x :: (evictQ C t (u - x.charge)).2.1,
               (evictQ C t (u - x.charge)).2.2)
            else (x :: t, [], u) := rfl
      rw [hstate, ih (u - x.charge) n (D ++ [qrec x]) hnd' hhot', hevq, if_pos hcap]
      simp [qrec]
    · rw [if_neg (show ¬ s.capacity < s.usage from hcap)]
      have hevq : evictQ C (x :: t) u
          = if C < u then
              ((evictQ C t (u - x.charge)).1, x :: (evictQ C t (u - x.charge)).2.1,
               (evictQ C t (u - x.charge)).2.2)
            else (x :: t, [], u) := rfl
      rw [hevq, if_neg hcap, hsdef]
      simp

/-- One insert-and-release round of the cache simulates one `stepQ` round of
the queue model. -/
theorem round_sim (C : Nat) (q : List QE) (D : List (Nat × Nat × Nat)) (n ctr : Nat)
    (it : Nat × Nat × Nat)
    (hnd : (q.map (·.id)).Nodup) (hfr : ∀ x ∈ q, x.id < n)
    (hk : ∀ x ∈ q, x.key ≠ it.1) :
    insRel ⟨C, n, q.map qslot, q.map (·.id), sumCharge q, D, ctr⟩ it =
      ⟨C, n + 1, ((stepQ C q ⟨n, it.1, it.2.1, it.2.2⟩).1).map qslot,
       ((stepQ C q ⟨n, it.1, it.2.1, it.2.2⟩).1).map (·.id),
       sumCharge (stepQ C q ⟨n, it.1, it.2.1, it.2.2⟩).1,
       D ++ ((stepQ C q ⟨n, it.1, it.2.1, it.2.2⟩).2).map qrec, ctr⟩ := by
  set s0 : CacheState := ⟨C, n, q.map qslot, q.map (·.id), sumCharge q, D, ctr⟩ with hs0
  have hil : ilook s0.slots it.1 = none := by
    apply ilook_eq_none_of_keys
    intro p hp _
    rcases List.mem_map.mp hp with ⟨y, hy, rfl⟩
    show (qslot y).2.key ≠ it.1
    exact hk y hy
  have hdisp : insertDisplace s0 it.1 = s0 := by
    unfold insertDisplace
    rw [hil]
  have hins : insert s0 it.1 it.2.1 it.2.2
      = (n, evictFrom ⟨C, n + 1,
          q.map qslot ++ [(n, ⟨it.1, it.2.1, it.2.2, 2, true⟩)],
          q.map (·.id), sumCharge q + it.2.2, D, ctr⟩ q.length) := by
    have h1 : insert s0 it.1 it.2.1 it.2.2
        = ((insertDisplace s0 it.1).nextId,
           evict { insertDisplace s0 it.1 with
                   slots := (insertDisplace s0 it.1).slots ++
                     [((insertDisplace s0 it.1).nextId,
                       ⟨it.1, it.2.1, it.2.2, 2, true⟩)],
                   nextId := (insertDisplace s0 it.1).nextId + 1,
                   usage := (insertDisplace s0 it.1).usage + it.2.2 }) := rfl
    rw [h1, hdisp]
    show (n, evictFrom ⟨C, n + 1,
        q.map qslot ++ [(n, ⟨it.1, it.2.1, it.2.2, 2, true⟩)],
        q.map (·.id), sumCharge q + it.2.2, D, ctr⟩ (q.map (·.id)).length) = _
    rw [List.length_map]
  have hhot : ∀ x ∈ q, x.id ≠ (n, (⟨it.1, it.2.1, it.2.2, 2, true⟩ : Entry)).1 :=
    fun x hx => Nat.ne_of_lt (hfr x hx)
  have hsim := evictFrom_sim C ctr (n, ⟨it.1, it.2.1, it.2.2, 2, true⟩) q
    (sumCharge q + it.2.2) (n + 1) D hnd hhot
  show release (insert s0 it.1 it.2.1 it.2.2).2 (insert s0 it.1 it.2.1 it.2.2).1 = _
  rw [hins]
  dsimp only
  rw [hsim]
  have hfresh : slookup (((evictQ C q (sumCharge q + it.2.2)).1).map qslot) n
      = none := by
    apply slookup_eq_none_of_fresh
    intro p hp
    rcases List.mem_map.mp hp with ⟨y, hy, rfl⟩
    have hyq : y ∈ q := (evictQ_rem_sublist C q _).subset hy
    show y.id ≠ n
    exact Nat.ne_of_lt (hfr y hyq)
  have hslr : slookup
      (((evictQ C q (sumCharge q + it.2.2)).1).map qslot ++
        [(n, (⟨it.1, it.2.1, it.2.2, 2, true⟩ : Entry))]) n
      = some ⟨it.1, it.2.1, it.2.2, 2, true⟩ := by
    rw [slookup_append_of_none hfresh, slookup_singleton, if_pos rfl]
  rw [release_demote hslr rfl rfl]
  have hsupd : supd
      (((evictQ C q (sumCharge q + it.2.2)).1).map qslot ++
        [(n, (⟨it.1, it.2.1, it.2.2, 2, true⟩ : Entry))]) n
      { (⟨it.1, it.2.1, it.2.2, 2, true⟩ : Entry) with refs := 1 }
      = ((evictQ C q (sumCharge q + it.2.2)).1 ++ [(⟨n, it.1, it.2.1, it.2.2⟩ : QE)]).map qslot := by
    rw [supd_append, supd_eq_self _ ?hfr', List.map_append]
    case hfr' =>
      intro p hp
      rcases List.mem_map.mp hp with ⟨y, hy, rfl⟩
      have hyq : y ∈ q := (evictQ_rem_sublist C q _).subset hy
      show y.id ≠ n
      exact Nat.ne_of_lt (hfr y hyq)
    simp [supd, qslot]
  have husage := evictQ_usage C q it.2.2
  show (⟨C, n + 1,
      supd (((evictQ C q (sumCharge q + it.2.2)).1).map qslot ++
        [(n, (⟨it.1, it.2.1, it.2.2, 2, true⟩ : Entry))]) n
        { (⟨it.1, it.2.1, it.2.2, 2, true⟩ : Entry) with refs := 1 },
      ((evictQ C q (sumCharge q + it.2.2)).1).map (·.id) ++ [n],
      (evictQ C q (sumCharge q + it.2.2)).2.2,
      D ++ ((evictQ C q (sumCharge q + it.2.2)).2.1).map qrec, ctr⟩ : CacheState) = _
  rw [hsupd]
  show _ = (⟨C, n + 1,
      ((evictQ C q (sumCharge q + it.2.2)).1 ++ [(⟨n, it.1, it.2.1, it.2.2⟩ : QE)]).map qslot,
      ((evictQ C q (sumCharge q + it.2.2)).1 ++ [(⟨n, it.1, it.2.1, it.2.2⟩ : QE)]).map (·.id),
      sumCharge ((evictQ C q (sumCharge q + it.2.2)).1 ++ [(⟨n, it.1, it.2.1, it.2.2⟩ : QE)]),
      D ++ ((evictQ C q (sumCharge q + it.2.2)).2.1).map qrec, ctr⟩ : CacheState)
  simp [husage, sumCharge_append, sumCharge_cons]

/-- A whole insert-and-release run of the cache simulates the queue model. -/
theorem runQAux_sim (C ctr : Nat) :
    ∀ (items : List (Nat × Nat × Nat)) (q : List QE)
      (D : List (Nat × Nat × Nat)) (n : Nat),
      (q.map (·.id)).Nodup → (∀ x ∈ q, x.id < n) →
      ((q.map (·.key)) ++ items.map (·.1)).Nodup →
      runIR ⟨C, n, q.map qslot, q.map (·.id), sumCharge q, D, ctr⟩ items =
        ⟨C, (runQAux C items q D n).2.2,
         ((runQAux C items q D n).1).map qslot,
         ((runQAux C items q D n).1).map (·.id),
         sumCharge (runQAux C items q D n).1,
         (runQAux C items q D n).2.1, ctr⟩ := by
  intro items
  induction items with
  | nil => intro q D n _ _ _; rfl
  | cons it rest ih =>
    intro q D n hnd hfr hkeys
    have hknew : ∀ x ∈ q, x.key ≠ it.1 := by
      intro x hx h
      have hd := List.disjoint_of_nodup_append hkeys
      have hmem : x.key ∈ (it :: rest).map (·.1) := by
        rw [List.map_cons, h]
        exact List.mem_cons_self _ _
      exact hd (List.mem_map_of_mem (·.key) hx) hmem
    show runIR (insRel ⟨C, n, q.map qslot, q.map (·.id), sumCharge q, D, ctr⟩ it)
      rest = _
    rw [round_sim C q D n ctr it hnd hfr hknew]
    have hsubl : List.Sublist (evictQ C q (sumCharge q + it.2.2)).1 q :=
      evictQ_rem_sublist C q _
    have hq1 : (stepQ C q ⟨n, it.1, it.2.1, it.2.2⟩).1
        = (evictQ C q (sumCharge q + it.2.2)).1 ++ [(⟨n, it.1, it.2.1, it.2.2⟩ : QE)] :=
      rfl
    have hnd' : (((stepQ C q ⟨n, it.1, it.2.1, it.2.2⟩).1).map (·.id)).Nodup := by
      rw [hq1, List.map_append]
      refine (hnd.sublist (hsubl.map _)).append (by simp) ?_
      intro a ha hb
      rcases List.mem_map.mp ha with ⟨y, hy, rfl⟩
      simp only [List.map_cons, List.map_nil, List.mem_singleton] at hb
      exact absurd (hb ▸ hfr y (hsubl.subset hy)) (by omega)
    have hfr' : ∀ x ∈ (stepQ C q ⟨n, it.1, it.2.1, it.2.2⟩).1, x.id < n + 1 := by
      intro x hx
      rw [hq1] at hx
      rcases List.mem_append.mp hx with hx | hx
      · have := hfr x (hsubl.subset hx)
        omega
      · rcases List.mem_singleton.mp hx with rfl
        show n < n + 1
        omega
    have hkeys' : (((stepQ C q ⟨n, it.1, it.2.1, it.2.2⟩).1).map (·.key)
        ++ rest.map (·.1)).Nodup := by
      have hqk : ((stepQ C q ⟨n, it.1, it.2.1, it.2.2⟩).1).map (·.key)
          = ((evictQ C q (sumCharge q + it.2.2)).1).map (·.key) ++ [it.1] := by
        rw [hq1, List.map_append]
        rfl
      rw [hqk, List.append_assoc]
      have hsub2 : List.Sublist
          (((evictQ C q (sumCharge q + it.2.2)).1).map (·.key)
            ++ ([it.1] ++ rest.map (·.1)))
          (q.map (·.key) ++ ([it.1] ++ rest.map (·.1))) :=
        (hsubl.map _).append_right _
      refine List.Nodup.sublist hsub2 ?_
      have heq : q.map (·.key) ++ ([it.1] ++ rest.map (·.1))
          = q.map (·.key) ++ (it :: rest).map (·.1) := by
        rw [List.map_cons]
        rfl
      rw [heq]
      exact hkeys
    have hstep := ih (stepQ C q ⟨n, it.1, it.2.1, it.2.2⟩).1
      (D ++ ((stepQ C q ⟨n, it.1, it.2.1, it.2.2⟩).2).map qrec) (n + 1)
      hnd' hfr' hkeys'
    rw [show runQAux C (it :: rest) q D n
        = runQAux C rest (stepQ C q ⟨n, it.1, it.2.1, it.2.2⟩).1
            (D ++ ((stepQ C q ⟨n, it.1, it.2.1, it.2.2⟩).2).map qrec) (n + 1)
      from rfl]
    exact hstep

theorem maxFit_cons (C : Nat) (x : QE) (t : List QE) :
    maxFit C (x :: t) = if sumCharge (x :: t) ≤ C then x :: t else maxFit C t := rfl

theorem dropFit_cons (C : Nat) (x : QE) (t : List QE) :
    dropFit C (x :: t) = if sumCharge (x :: t) ≤ C then [] else x :: dropFit C t := rfl

theorem evictQ_eq_fit (C : Nat) :
    ∀ (q : List QE) (c : Nat), c ≤ C →
      (evictQ C q (sumCharge q + c)).1 = maxFit (C - c) q
      ∧ (evictQ C q (sumCharge q + c)).2.1 = dropFit (C - c) q := by
  intro q
  induction q with
  | nil => intro c _; exact ⟨rfl, rfl⟩
  | cons x t ih =>
    intro c hc
    by_cases hfit : sumCharge (x :: t) ≤ C - c
    · have hno : ¬ C < sumCharge (x :: t) + c := by omega
      unfold evictQ maxFit dropFit
      rw [if_neg hno, if_pos hfit, if_pos hfit]
      exact ⟨rfl, rfl⟩
    · have hlt : C < sumCharge (x :: t) + c := by omega
      have harg : sumCharge (x :: t) + c - x.charge = sumCharge t + c := by
        rw [sumCharge_cons]
        omega
      unfold evictQ maxFit dropFit
      rw [if_pos hlt, if_neg hfit, if_neg hfit, harg]
      rcases ih c hc with ⟨ih1, ih2⟩
      exact ⟨ih1, by rw [ih2]⟩

theorem fit_append_one (C : Nat) (x : QE) (hc : x.charge ≤ C) :
    ∀ q : List QE,
      maxFit C (q ++ [x]) = maxFit (C - x.charge) q ++ [x]
      ∧ dropFit C (q ++ [x]) = dropFit (C - x.charge) q := by
  intro q
  induction q with
  | nil =>
    have h1 : sumCharge [x] ≤ C := by
      rw [sumCharge_cons, sumCharge_nil]
      omega
    rw [List.nil_append, maxFit_cons, dropFit_cons, if_pos h1, if_pos h1]
    exact ⟨rfl, rfl⟩
  | cons y t ih =>
    have hsum : sumCharge (y :: (t ++ [x])) = sumCharge (y :: t) + x.charge := by
      rw [show y :: (t ++ [x]) = (y :: t) ++ [x] from rfl, sumCharge_append,
        show sumCharge [x] = x.charge from by
          rw [sumCharge_cons, sumCharge_nil]
          omega]
    by_cases hfit : sumCharge (y :: t) ≤ C - x.charge
    · have h1 : sumCharge (y :: (t ++ [x])) ≤ C := by omega
      rw [show (y :: t) ++ [x] = y :: (t ++ [x]) from rfl,
        maxFit_cons C y (t ++ [x]), dropFit_cons C y (t ++ [x]),
        maxFit_cons (C - x.charge) y t, dropFit_cons (C - x.charge) y t,
        if_pos h1, if_pos h1, if_pos hfit, if_pos hfit]
      exact ⟨rfl, rfl⟩
    · have h1 : ¬ sumCharge (y :: (t ++ [x])) ≤ C := by omega
      rw [show (y :: t) ++ [x] = y :: (t ++ [x]) from rfl,
        maxFit_cons C y (t ++ [x]), dropFit_cons C y (t ++ [x]),
        maxFit_cons (C - x.charge) y t, dropFit_cons (C - x.charge) y t,
        if_neg h1, if_neg h1, if_neg hfit, if_neg hfit]
      rcases ih with ⟨ih1, ih2⟩
      exact ⟨ih1, by rw [ih2]⟩

theorem fit_absorb (C : Nat) :
    ∀ l r : List QE,
      maxFit C (l ++ r) = maxFit C (maxFit C l ++ r)
      ∧ dropFit C (l ++ r) = dropFit C l ++ dropFit C (maxFit C l ++ r) := by
  intro l
  induction l with
  | nil => intro r; exact ⟨rfl, rfl⟩
  | cons x l' ih =>
    intro r
    by_cases hfit : sumCharge (x :: l') ≤ C
    · have h1 : maxFit C (x :: l') = x :: l' := by
        rw [maxFit_cons, if_pos hfit]
      have h2 : dropFit C (x :: l') = [] := by
        rw [dropFit_cons, if_pos hfit]
      rw [h1, h2, List.nil_append]
      exact ⟨rfl, rfl⟩
    · have h1 : maxFit C (x :: l') = maxFit C l' := by
        rw [maxFit_cons, if_neg hfit]
      have h2 : dropFit C (x :: l') = x :: dropFit C l' := by
        rw [dropFit_cons, if_neg hfit]
      have hbig : ¬ sumCharge (x :: (l' ++ r)) ≤ C := by
        rw [sumCharge_cons, sumCharge_append]
        rw [sumCharge_cons] at hfit
        omega
      rw [h1, h2]
      constructor
      · rw [show (x :: l') ++ r = x :: (l' ++ r) from rfl,
          maxFit_cons, if_neg hbig]
        exact (ih r).1
      · rw [show (x :: l') ++ r = x :: (l' ++ r) from rfl,
          dropFit_cons, if_neg hbig, (ih r).2]
        rfl

theorem maxFit_sum_le (C : Nat) : ∀ q : List QE, sumCharge (maxFit C q) ≤ C := by
  intro q
  induction q with
  | nil => show 0 ≤ C; omega
  | cons x t ih =>
    rw [maxFit_cons]
    by_cases hfit : sumCharge (x :: t) ≤ C
    · rw [if_pos hfit]; exact hfit
    · rw [if_neg hfit]; exact ih

theorem maxFit_of_le {C : Nat} {q : List QE} (h : sumCharge q ≤ C) :
    maxFit C q = q := by
  cases q with
  | nil => rfl
  | cons x t =>
    rw [maxFit_cons, if_pos h]

theorem dropFit_of_le {C : Nat} {q : List QE} (h : sumCharge q ≤ C) :
    dropFit C q = [] := by
  cases q with
  | nil => rfl
  | cons x t =>
    rw [dropFit_cons, if_pos h]

/-- Characterisation of the queue model: when every charge fits in the
capacity alone, running the rounds keeps exactly the longest fitting suffix
and evicts exactly the complementary oldest prefix, in order. -/
theorem runQAux_fit (C : Nat) :
    ∀ (items : List (Nat × Nat × Nat)) (q : List QE)
      (D : List (Nat × Nat × Nat)) (n : Nat),
      (∀ it ∈ items, it.2.2 ≤ C) → sumCharge q ≤ C →
      runQAux C items q D n =
        (maxFit C (q ++ tagQ n items),
         D ++ (dropFit C (q ++ tagQ n items)).map qrec,
         n + items.length) := by
  intro items
  induction items with
  | nil =>
    intro q D n _ hq
    show (q, D, n) = _
    rw [show tagQ n ([] : List (Nat × Nat × Nat)) = [] from rfl, List.append_nil,
      maxFit_of_le hq, dropFit_of_le hq]
    simp
  | cons it rest ih =>
    intro q D n hch hq
    have hc : it.2.2 ≤ C := hch it (List.mem_cons_self it rest)
    have hstep1 : (stepQ C q ⟨n, it.1, it.2.1, it.2.2⟩).1
        = maxFit C (q ++ [(⟨n, it.1, it.2.1, it.2.2⟩ : QE)]) := by
      unfold stepQ
      rw [(evictQ_eq_fit C q it.2.2 hc).1,
        (fit_append_one C ⟨n, it.1, it.2.1, it.2.2⟩ hc q).1]
    have hstep2 : (stepQ C q ⟨n, it.1, it.2.1, it.2.2⟩).2
        = dropFit C (q ++ [(⟨n, it.1, it.2.1, it.2.2⟩ : QE)]) := by
      unfold stepQ
      rw [(evictQ_eq_fit C q it.2.2 hc).2,
        (fit_append_one C ⟨n, it.1, it.2.1, it.2.2⟩ hc q).2]
    show runQAux C rest (stepQ C q ⟨n, it.1, it.2.1, it.2.2⟩).1
        (D ++ ((stepQ C q ⟨n, it.1, it.2.1, it.2.2⟩).2).map qrec) (n + 1) = _
    rw [hstep1, hstep2,
      ih (maxFit C (q ++ [(⟨n, it.1, it.2.1, it.2.2⟩ : QE)]))
        (D ++ (dropFit C (q ++ [(⟨n, it.1, it.2.1, it.2.2⟩ : QE)])).map qrec) (n + 1)
        (fun x hx => hch x (List.mem_cons_of_mem _ hx))
        (maxFit_sum_le C _)]
    have htag : tagQ n (it :: rest)
        = (⟨n, it.1, it.2.1, it.2.2⟩ : QE) :: tagQ (n + 1) rest := rfl
    have happ : q ++ tagQ n (it :: rest)
        = (q ++ [(⟨n, it.1, it.2.1, it.2.2⟩ : QE)]) ++ tagQ (n + 1) rest := by
      rw [htag, List.append_assoc]
      rfl
    rw [happ,
      (fit_absorb C (q ++ [(⟨n, it.1, it.2.1, it.2.2⟩ : QE)]) (tagQ (n + 1) rest)).1.symm,
      (fit_absorb C (q ++ [(⟨n, it.1, it.2.1, it.2.2⟩ : QE)]) (tagQ (n + 1) rest)).2]
    rw [List.map_append, List.append_assoc]
    show (_, _, n + 1 + rest.length) = (_, _, n + (it :: rest).length)
    rw [show (it :: rest).length = rest.length + 1 from rfl,
      show n + 1 + rest.length = n + (rest.length + 1) from by omega,
      List.append_assoc]

theorem fitSuffix_cons (C : Nat) (it : Nat × Nat × Nat) (rest : List (Nat × Nat × Nat)) :
    fitSuffix C (it :: rest)
      = if chargeSum (it :: rest) ≤ C then it :: rest else fitSuffix C rest := rfl

theorem dropPart_cons (C : Nat) (it : Nat × Nat × Nat) (rest : List (Nat × Nat × Nat)) :
    dropPart C (it :: rest)
      = if chargeSum (it :: rest) ≤ C then [] else it :: dropPart C rest := rfl

theorem tagQ_cons (n : Nat) (it : Nat × Nat × Nat) (rest : List (Nat × Nat × Nat)) :
    tagQ n (it :: rest) = (⟨n, it.1, it.2.1, it.2.2⟩ : QE) :: tagQ (n + 1) rest := rfl

theorem maxFit_tagQ_keys (C : Nat) :
    ∀ (items : List (Nat × Nat × Nat)) (n : Nat),
      (maxFit C (tagQ n items)).map (·.key) = (fitSuffix C items).map (·.1) := by
  intro items
  induction items with
  | nil => intro n; rfl
  | cons it rest ih =>
    intro n
    rw [tagQ_cons, maxFit_cons, fitSuffix_cons]
    have hsum : sumCharge ((⟨n, it.1, it.2.1, it.2.2⟩ : QE) :: tagQ (n + 1) rest)
        = chargeSum (it :: rest) := by
      have h := chargeSum_tagQ (it :: rest) n
      rwa [tagQ_cons] at h
    rw [hsum]
    by_cases h : chargeSum (it :: rest) ≤ C
    · rw [if_pos h, if_pos h, ← tagQ_cons, tagQ_keys]
    · rw [if_neg h, if_neg h]
      exact ih (n + 1)

theorem dropFit_tagQ_keys (C : Nat) :
    ∀ (items : List (Nat × Nat × Nat)) (n : Nat),
      (dropFit C (tagQ n items)).map (·.key) = (dropPart C items).map (·.1) := by
  intro items
  induction items with
  | nil => intro n; rfl
  | cons it rest ih =>
    intro n
    rw [tagQ_cons, dropFit_cons, dropPart_cons]
    have hsum : sumCharge ((⟨n, it.1, it.2.1, it.2.2⟩ : QE) :: tagQ (n + 1) rest)
        = chargeSum (it :: rest) := by
      have h := chargeSum_tagQ (it :: rest) n
      rwa [tagQ_cons] at h
    rw [hsum]
    by_cases h : chargeSum (it :: rest) ≤ C
    · rw [if_pos h, if_pos h]
      rfl
    · rw [if_neg h, if_neg h, List.map_cons, List.map_cons, ih (n + 1)]

theorem dropPart_append_fitSuffix (C : Nat) :
    ∀ items : List (Nat × Nat × Nat),
      dropPart C items ++ fitSuffix C items = items := by
  intro items
  induction items with
  | nil => rfl
  | cons it rest ih =>
    rw [dropPart_cons, fitSuffix_cons]
    by_cases h : chargeSum (it :: rest) ≤ C
    · rw [if_pos h, if_pos h, List.nil_append]
    · rw [if_neg h, if_neg h, List.cons_append, ih]

theorem fitSuffix_chargeSum_le (C : Nat) :
    ∀ items : List (Nat × Nat × Nat), chargeSum (fitSuffix C items) ≤ C := by
  intro items
  induction items with
  | nil => show 0 ≤ C; omega
  | cons it rest ih =>
    rw [fitSuffix_cons]
    by_cases h : chargeSum (it :: rest) ≤ C
    · rw [if_pos h]; exact h
    · rw [if_neg h]; exact ih

theorem tagQ_id_ge :
    ∀ (items : List (Nat × Nat × Nat)) (n : Nat), ∀ x ∈ tagQ n items, n ≤ x.id := by
  intro items
  induction items with
  | nil => intro n x hx; simp [tagQ] at hx
  | cons it rest ih =>
    intro n x hx
    rw [tagQ_cons] at hx
    rcases List.mem_cons.mp hx with rfl | hx
    · show n ≤ n; omega
    · have := ih (n + 1) x hx
      omega

theorem tagQ_ids_nodup :
    ∀ (items : List (Nat × Nat × Nat)) (n : Nat), ((tagQ n items).map (·.id)).Nodup := by
  intro items
  induction items with
  | nil => intro n; simp [tagQ]
  | cons it rest ih =>
    intro n
    rw [tagQ_cons, List.map_cons, List.nodup_cons]
    refine ⟨?_, ih (n + 1)⟩
    intro hmem
    rcases List.mem_map.mp hmem with ⟨y, hy, hid⟩
    have h1 := tagQ_id_ge rest (n + 1) y hy
    rw [hid] at h1
    have h2 : (⟨n, it.1, it.2.1, it.2.2⟩ : QE).id = n := rfl
    rw [h2] at h1
    show False
    omega

theorem maxFit_sublist (C : Nat) :
    ∀ q : List QE, List.Sublist (maxFit C q) q := by
  intro q
  induction q with
  | nil => exact List.Sublist.refl _
  | cons x t ih =>
    rw [maxFit_cons]
    by_cases h : sumCharge (x :: t) ≤ C
    · rw [if_pos h]
    · rw [if_neg h]
      exact ih.cons x

/-- On a queue-shaped state, a key resolves through `Lookup` exactly when the
queue holds it. -/
theorem lookup_isSome_iff (C n ctr : Nat) (q : List QE) (D : List (Nat × Nat × Nat))
    (hnd : (q.map (·.id)).Nodup) (k : Nat) :
    ((lookup ⟨C, n, q.map qslot, q.map (·.id), sumCharge q, D, ctr⟩ k).1).isSome = true
      ↔ k ∈ q.map (·.key) := by
  have hmapfst : ((q.map qslot).map (·.1)) = q.map (·.id) := by
    rw [List.map_map]
    rfl
  rcases hq : ilook (q.map qslot) k with _ | j
  · refine iff_of_false ?_ ?_
    · show ¬ ((lookup _ k).1.isSome = true)
      unfold lookup
      dsimp only
      rw [hq]
      simp
    · intro hmem
      rcases List.mem_map.mp hmem with ⟨x, hx, hkey⟩
      exact ilook_none_forall hq (qslot x) (List.mem_map_of_mem qslot hx) rfl hkey
  · rcases ilook_some_slookup (hmapfst ▸ hnd) hq with ⟨e, he, _, _⟩
    refine iff_of_true ?_ ?_
    · show ((lookup _ k).1.isSome = true)
      unfold lookup
      dsimp only
      rw [hq]
      dsimp only
      rw [he]
      rfl
    · rcases ilook_some_mem hq with ⟨ej, hmem, _, hjk⟩
      rcases List.mem_map.mp hmem with ⟨x, hx, hqx⟩
      have hxkey : x.key = k := by
        have : (qslot x).2.key = ej.key := by rw [hqx]
        rw [← hjk]
        exact this
      exact hxkey ▸ List.mem_map_of_mem (·.key) hx

/-- C4 counterexample: capacity 10, insert key 0 with charge 5 and release,
then insert key 1 with charge 20 and release.  Key 1 remains resolvable even
though its charge 20 does not fit within the capacity 10, refuting "the
surviving keys are exactly the most recent ones whose charges fit within C". -/
theorem C4_counterexample :
    ((lookup (runIR (initC 10) [(0, 1, 5), (1, 2, 20)]) 1).1).isSome = true
    ∧ (initC 10).capacity < 20 := by
  decide

/-- C4 (amended): with pairwise-distinct keys and each individual charge at
most the capacity, after a sequence of inserts each immediately released the
resolvable keys are exactly those of the longest most-recently-inserted
suffix whose total charge fits within the capacity; the evicted entries are
exactly the complementary oldest prefix, their deleters invoked strictly
oldest-first. -/
theorem C4_lru_order (C : Nat) (items : List (Nat × Nat × Nat))
    (hkeys : (items.map (·.1)).Nodup) (hch : ∀ it ∈ items, it.2.2 ≤ C) :
    (∀ k, (((lookup (runIR (initC C) items) k).1).isSome = true)
        ↔ k ∈ (fitSuffix C items).map (·.1))
    ∧ (runIR (initC C) items).deleted.map (·.2.1) = (dropPart C items).map (·.1)
    ∧ dropPart C items ++ fitSuffix C items = items
    ∧ chargeSum (fitSuffix C items) ≤ C := by
  have hsim := runQAux_sim C 0 items [] [] 0 (by simp) (by simp)
    (by simpa using hkeys)
  have hfit := runQAux_fit C items [] [] 0 hch (by show 0 ≤ C; omega)
  simp only [List.nil_append] at hfit
  have hrun : runIR (initC C) items
      = ⟨C, (runQAux C items [] [] 0).2.2,
         ((runQAux C items [] [] 0).1).map qslot,
         ((runQAux C items [] [] 0).1).map (·.id),
         sumCharge (runQAux C items [] [] 0).1,
         (runQAux C items [] [] 0).2.1, 0⟩ := hsim
  rw [hrun, hfit]
  dsimp only
  have hndq : ((maxFit C (tagQ 0 items)).map (·.id)).Nodup :=
    List.Nodup.sublist ((maxFit_sublist C _).map _) (tagQ_ids_nodup items 0)
  refine ⟨?_, ?_, dropPart_append_fitSuffix C items, fitSuffix_chargeSum_le C items⟩
  · intro k
    rw [lookup_isSome_iff C (0 + items.length) 0 (maxFit C (tagQ 0 items))
      ((dropFit C (tagQ 0 items)).map qrec) hndq k]
    rw [maxFit_tagQ_keys]
  · rw [List.map_map]
    have : ((fun d : Nat × Nat × Nat => d.2.1) ∘ qrec) = fun x : QE => x.key := rfl
    rw [this, dropFit_tagQ_keys]

/-- Witness for C4 (amended) at a concrete insert sequence. -/
theorem C4_witness :
    ((([(10, 0, 6), (11, 0, 5), (12, 0, 4)] :
        List (Nat × Nat × Nat)).map (·.1)).Nodup
     ∧ ∀ it ∈ ([(10, 0, 6), (11, 0, 5), (12, 0, 4)] : List (Nat × Nat × Nat)),
        it.2.2 ≤ 10)
    ∧ ((∀ k, (((lookup (runIR (initC 10) [(10, 0, 6), (11, 0, 5), (12, 0, 4)]) k).1).isSome
            = true)
        ↔ k ∈ (fitSuffix 10 [(10, 0, 6), (11, 0, 5), (12, 0, 4)]).map (·.1))
       ∧ (runIR (initC 10) [(10, 0, 6), (11, 0, 5), (12, 0, 4)]).deleted.map (·.2.1)
          = (dropPart 10 [(10, 0, 6), (11, 0, 5), (12, 0, 4)]).map (·.1)
       ∧ dropPart 10 [(10, 0, 6), (11, 0, 5), (12, 0, 4)]
          ++ fitSuffix 10 [(10, 0, 6), (11, 0, 5), (12, 0, 4)]
          = [(10, 0, 6), (11, 0, 5), (12, 0, 4)]
       ∧ chargeSum (fitSuffix 10 [(10, 0, 6), (11, 0, 5), (12, 0, 4)]) ≤ 10) :=
  ⟨⟨by decide, by decide⟩,
    C4_lru_order 10 [(10, 0, 6), (11, 0, 5), (12, 0, 4)] (by decide) (by decide)⟩

/-! ### The sharded front door -/

/-- Modelled from the spec: the state of the sharded cache (spec.md section
4.4, the `ShardedLRUCache` class of the missing util/cache.cc): a fixed
power-of-two number `2 ^ nbits` of independent shards plus the process-wide
id counter backing `NewId`. -/
structure Sharded where
  nbits : Nat
  shards : List CacheState
  idCtr : Nat
deriving DecidableEq

/-- Modelled from the spec: key-to-shard routing (spec.md section 4.4): hash
the key with the caller-fixed hash function into 32 bits and take the
high-order `nbits` bits. -/
def shardOf (hash : Nat → Nat) (nbits k : Nat) : Nat :=
  ((hash k) % 2 ^ 32) >>> (32 - nbits)

/-- Modelled from the spec: each shard's capacity slice (spec.md section 4.4):
the total capacity divided by the shard count, rounded up so the remainder is
absorbed. -/
def perShardCap (cap nbits : Nat) : Nat :=
  (cap + (2 ^ nbits - 1)) / 2 ^ nbits

/-- Modelled from the spec: a fresh sharded cache (`NewLRUCache`, cache.h line
34, spec.md section 4.4): `2 ^ nbits` empty shards of the per-shard capacity. -/
def newSharded (nbits cap : Nat) : Sharded :=
  ⟨nbits, List.replicate (2 ^ nbits) (initC (perShardCap cap nbits)), 0⟩

/-- Apply a function to the shard at a given index. -/
def updShard (st : Sharded) (j : Nat) (f : CacheState → CacheState) : Sharded :=
  { st with shards := st.shards.set j (f (st.shards.getD j (initC 0))) }

/-- Modelled from the spec: the router's dispatch of one public operation
(spec.md section 4.4): key-indexed operations go to the key's shard, `Prune`
fans out to every shard, `NewId` bumps the shared counter. -/
def sApplyOp (hash : Nat → Nat) (st : Sharded) : Op → Sharded
  | .ins k v c => updShard st (shardOf hash st.nbits k) (fun s => (insert s k v c).2)
  | .look k => updShard st (shardOf hash st.nbits k) (fun s => (lookup s k).2)
  | .rel k i => updShard st (shardOf hash st.nbits k) (fun s => release s i)
  | .ers k => updShard st (shardOf hash st.nbits k) (fun s => erase s k)
  | .prune => { st with shards := st.shards.map prune }
  | .newid => { st with idCtr := st.idCtr + 1 }

/-- Run a sequence of operations on the sharded cache. -/
def sRun (hash : Nat → Nat) (st : Sharded) (ops : List Op) : Sharded :=
  ops.foldl (sApplyOp hash) st

/-- Modelled from the spec: the sharded `Lookup` observation (spec.md section
4.4): delegate to the key's shard. -/
def sLookup (hash : Nat → Nat) (st : Sharded) (k : Nat) : Option Nat :=
  (lookup (st.shards.getD (shardOf hash st.nbits k) (initC 0)) k).1

/-- Whether the router sends an operation to the shard at index `j`. -/
def opForShard (hash : Nat → Nat) (nbits j : Nat) : Op → Bool
  | .ins k _ _ => shardOf hash nbits k == j
  | .look k => shardOf hash nbits k == j
  | .rel k _ => shardOf hash nbits k == j
  | .ers k => shardOf hash nbits k == j
  | .prune => true
  | .newid => false

theorem sApplyOp_nbits (hash : Nat → Nat) (st : Sharded) (op : Op) :
    (sApplyOp hash st op).nbits = st.nbits := by
  cases op <;> rfl

theorem sRun_nbits (hash : Nat → Nat) :
    ∀ (ops : List Op) (st : Sharded), (sRun hash st ops).nbits = st.nbits := by
  intro ops
  induction ops with
  | nil => intro st; rfl
  | cons op rest ih =>
    intro st
    show (sRun hash (sApplyOp hash st op) rest).nbits = st.nbits
    rw [ih, sApplyOp_nbits]

theorem sRun_shard (hash : Nat → Nat) (nbits : Nat) :
    ∀ (ops : List Op) (st : Sharded) (j : Nat) (s : CacheState),
      st.nbits = nbits → st.shards[j]? = some s →
      (sRun hash st ops).shards[j]? =
        some (run s (ops.filter (opForShard hash nbits j))) := by
  intro ops
  induction ops with
  | nil => intro st j s _ hj; exact hj
  | cons op rest ih =>
    intro st j s hn hj
    have hlen : j < st.shards.length := (List.getElem?_eq_some.mp hj).1
    show (sRun hash (sApplyOp hash st op) rest).shards[j]? = _
    cases op with
    | ins k v c =>
      by_cases hsh : shardOf hash nbits k = j
      · have hupd : (sApplyOp hash st (.ins k v c)).shards[j]?
            = some ((insert s k v c).2) := by
          show (st.shards.set (shardOf hash st.nbits k)
            ((insert (st.shards.getD (shardOf hash st.nbits k) (initC 0)) k v c).2))[j]? = _
          rw [hn, hsh, List.getElem?_set_self hlen,
              List.getD_eq_getElem?_getD, hj]
          rfl
        rw [List.filter_cons_of_pos (by simp [opForShard, hsh])]
        show (sRun hash _ rest).shards[j]?
          = some (run ((insert s k v c).2) (rest.filter (opForShard hash nbits j)))
        exact ih _ j _ (by rw [sApplyOp_nbits, hn]) hupd
      · have hupd : (sApplyOp hash st (.ins k v c)).shards[j]? = some s := by
          show (st.shards.set (shardOf hash st.nbits k) _)[j]? = _
          rw [hn, List.getElem?_set_ne hsh, hj]
        rw [List.filter_cons_of_neg (by simp [opForShard, hsh])]
        exact ih _ j _ (by rw [sApplyOp_nbits, hn]) hupd
    | look k =>
      by_cases hsh : shardOf hash nbits k = j
      · have hupd : (sApplyOp hash st (.look k)).shards[j]?
            = some ((lookup s k).2) := by
          show (st.shards.set (shardOf hash st.nbits k)
            ((lookup (st.shards.getD (shardOf hash st.nbits k) (initC 0)) k).2))[j]? = _
          rw [hn, hsh, List.getElem?_set_self hlen,
              List.getD_eq_getElem?_getD, hj]
          rfl
        rw [List.filter_cons_of_pos (by simp [opForShard, hsh])]
        show (sRun hash _ rest).shards[j]?
          = some (run ((lookup s k).2) (rest.filter (opForShard hash nbits j)))
        exact ih _ j _ (by rw [sApplyOp_nbits, hn]) hupd
      · have hupd : (sApplyOp hash st (.look k)).shards[j]? = some s := by
          show (st.shards.set (shardOf hash st.nbits k) _)[j]? = _
          rw [hn, List.getElem?_set_ne hsh, hj]
        rw [List.filter_cons_of_neg (by simp [opForShard, hsh])]
        exact ih _ j _ (by rw [sApplyOp_nbits, hn]) hupd
    | rel k i =>
      by_cases hsh : shardOf hash nbits k = j
      · have hupd : (sApplyOp hash st (.rel k i)).shards[j]?
            = some (release s i) := by
          show (st.shards.set (shardOf hash st.nbits k)
            (release (st.shards.getD (shardOf hash st.nbits k) (initC 0)) i))[j]? = _
          rw [hn, hsh, List.getElem?_set_self hlen,
              List.getD_eq_getElem?_getD, hj]
          rfl
        rw [List.filter_cons_of_pos (by simp [opForShard, hsh])]
        show (sRun hash _ rest).shards[j]?
          = some (run (release s i) (rest.filter (opForShard hash nbits j)))
        exact ih _ j _ (by rw [sApplyOp_nbits, hn]) hupd
      · have hupd : (sApplyOp hash st (.rel k i)).shards[j]? = some s := by
          show (st.shards.set (shardOf hash st.nbits k) _)[j]? = _
          rw [hn, List.getElem?_set_ne hsh, hj]
        rw [List.filter_cons_of_neg (by simp [opForShard, hsh])]
        exact ih _ j _ (by rw [sApplyOp_nbits, hn]) hupd
    | ers k =>
      by_cases hsh : shardOf hash nbits k = j
      · have hupd : (sApplyOp hash st (.ers k)).shards[j]?
            = some (erase s k) := by
          show (st.shards.set (shardOf hash st.nbits k)
            (erase (st.shards.getD (shardOf hash st.nbits k) (initC 0)) k))[j]? = _
          rw [hn, hsh, List.getElem?_set_self hlen,
              List.getD_eq_getElem?_getD, hj]
          rfl
        rw [List.filter_cons_of_pos (by simp [opForShard, hsh])]
        show (sRun hash _ rest).shards[j]?
          = some (run (erase s k) (rest.filter (opForShard hash nbits j)))
        exact ih _ j _ (by rw [sApplyOp_nbits, hn]) hupd
      · have hupd : (sApplyOp hash st (.ers k)).shards[j]? = some s := by
          show (st.shards.set (shardOf hash st.nbits k) _)[j]? = _
          rw [hn, List.getElem?_set_ne hsh, hj]
        rw [List.filter_cons_of_neg (by simp [opForShard, hsh])]
        exact ih _ j _ (by rw [sApplyOp_nbits, hn]) hupd
    | prune =>
      have hupd : (sApplyOp hash st .prune).shards[j]? = some (prune s) := by
        show (st.shards.map prune)[j]? = _
        rw [List.getElem?_map, hj]
        rfl
      rw [List.filter_cons_of_pos (by rfl)]
      show (sRun hash _ rest).shards[j]?
        = some (run (prune s) (rest.filter (opForShard hash nbits j)))
      exact ih _ j _ (by rw [sApplyOp_nbits, hn]) hupd
    | newid =>
      have hupd : (sApplyOp hash st .newid).shards[j]? = some s := hj
      rw [List.filter_cons_of_neg (by simp [opForShard])]
      exact ih _ j _ (by rw [sApplyOp_nbits, hn]) hupd

/-- Counterexample to C9: with two shards, identity hash and total capacity
100, keys 0 and 1 both route to shard 0, whose per-shard capacity is only 50;
inserting and releasing two charge-30 entries evicts the older one, while the
single unsharded cache of capacity 100 keeps both resolvable.  The sharded
cache is therefore observably different from the unsharded cache of the same
total capacity. -/
theorem C9_counterexample :
    (sLookup (fun k => k)
      (sRun (fun k => k) (newSharded 1 100)
        [Op.ins 0 7 30, Op.rel 0 0, Op.ins 1 8 30, Op.rel 1 1]) 0).isSome = false
    ∧ ((lookup (run (initC 100)
        [Op.ins 0 7 30, Op.rel 0 0, Op.ins 1 8 30, Op.rel 1 1]) 0).1).isSome = true := by
  decide

/-- C9 (amended): the sharded cache refines, per shard, the unsharded LRU
cache of the per-shard capacity: after any operation sequence, shard `j`'s
state equals running the subsequence of operations routed to shard `j` on a
single unsharded cache of capacity `perShardCap`, and every `Lookup` of a key
hashing to shard `j` observes exactly that unsharded cache's answer.  (The
per-shard capacity slice, not the total capacity, governs eviction.) -/
theorem C9_sharded_refinement (hash : Nat → Nat) (nbits cap : Nat)
    (ops : List Op) (j : Nat) (hj : j < 2 ^ nbits) :
    (sRun hash (newSharded nbits cap) ops).shards[j]? =
      some (run (initC (perShardCap cap nbits))
        (ops.filter (opForShard hash nbits j)))
    ∧ ∀ k, shardOf hash nbits k = j →
        sLookup hash (sRun hash (newSharded nbits cap) ops) k =
          (lookup (run (initC (perShardCap cap nbits))
            (ops.filter (opForShard hash nbits j))) k).1 := by
  have h1 : (sRun hash (newSharded nbits cap) ops).shards[j]? =
      some (run (initC (perShardCap cap nbits))
        (ops.filter (opForShard hash nbits j))) := by
    refine sRun_shard hash nbits ops (newSharded nbits cap) j _ rfl ?_
    show (List.replicate (2 ^ nbits) (initC (perShardCap cap nbits)))[j]? = _
    rw [List.getElem?_replicate, if_pos hj]
  refine ⟨h1, ?_⟩
  intro k hk
  show (lookup ((sRun hash (newSharded nbits cap) ops).shards.getD
      (shardOf hash (sRun hash (newSharded nbits cap) ops).nbits k) (initC 0)) k).1 = _
  rw [sRun_nbits]
  show (lookup ((sRun hash (newSharded nbits cap) ops).shards.getD
      (shardOf hash nbits k) (initC 0)) k).1 = _
  rw [hk, List.getD_eq_getElem?_getD, h1]
  rfl

/-- Witness for C9 (amended) at a concrete shard count and operation list. -/
theorem C9_witness :
    0 < 2 ^ 1
    ∧ ((sRun (fun k => k) (newSharded 1 100) [Op.ins 0 7 30]).shards[0]? =
        some (run (initC (perShardCap 100 1))
          ([Op.ins 0 7 30].filter (opForShard (fun k => k) 1 0)))
      ∧ ∀ k, shardOf (fun k => k) 1 k = 0 →
          sLookup (fun k => k)
              (sRun (fun k => k) (newSharded 1 100) [Op.ins 0 7 30]) k =
            (lookup (run (initC (perShardCap 100 1))
              ([Op.ins 0 7 30].filter (opForShard (fun k => k) 1 0))) k).1) :=
  ⟨by decide, C9_sharded_refinement (fun k => k) 1 100 [Op.ins 0 7 30] 0 (by decide)⟩

end LCache
